import Mathlib

/-!
Verification of the txtzip file-selection and chunked-archive assembly
pipeline (`src/index.ts`) against its natural-language specification.

JavaScript strings are sequences of UTF-16 code units; the chunk assembler
slices by code-unit index (`substr`) while measuring UTF-8 byte lengths
(`Buffer.byteLength(s, 'utf8')`).  We therefore model a JS string as a
`List Nat` of UTF-16 code units (`Units`), with Node's byte-length and
byte-encoding semantics (a lone surrogate encodes as the replacement
character U+FFFD, three bytes).  Well-formed file contents enter the
pipeline as Lean `String`s and are converted by `toUnits`.
-/

namespace Txtzip

/-- UTF-16 code units of a JavaScript string. -/
abbrev Units := List Nat

/-- Is the code unit a high (leading) surrogate? -/
def isHighSur (c : Nat) : Bool := 0xD800 ≤ c && c ≤ 0xDBFF

/-- Is the code unit a low (trailing) surrogate? -/
def isLowSur (c : Nat) : Bool := 0xDC00 ≤ c && c ≤ 0xDFFF

/-- UTF-8 byte length of a UTF-16 code-unit sequence, as computed by
Node's `Buffer.byteLength(s, 'utf8')`: a valid surrogate pair takes 4
bytes, a lone surrogate becomes U+FFFD (3 bytes). -/
def utf8LenU : Units → Nat
  | [] => 0
  | [c] => if c < 0x80 then 1 else if c < 0x800 then 2 else 3
  | c :: d :: rest =>
    if c < 0x80 then 1 + utf8LenU (d :: rest)
    else if c < 0x800 then 2 + utf8LenU (d :: rest)
    else if isHighSur c && isLowSur d then 4 + utf8LenU rest
    else 3 + utf8LenU (d :: rest)

/-- UTF-8 bytes of a Unicode scalar value (assumed valid, not a surrogate). -/
def scalarUtf8 (n : Nat) : List Nat :=
  if n < 0x80 then [n]
  else if n < 0x800 then [0xC0 + n / 0x40, 0x80 + n % 0x40]
  else if n < 0x10000 then [0xE0 + n / 0x1000, 0x80 + n / 0x40 % 0x40, 0x80 + n % 0x40]
  else [0xF0 + n / 0x40000, 0x80 + n / 0x1000 % 0x40, 0x80 + n / 0x40 % 0x40, 0x80 + n % 0x40]

/-- UTF-8 bytes produced by Node when encoding a UTF-16 code-unit sequence
(`writeFile(..., 'utf8')`): surrogate pairs combine, lone surrogates become
the replacement character `EF BF BD`. -/
def utf8BytesU : Units → List Nat
  | [] => []
  | [c] => if isHighSur c || isLowSur c then [0xEF, 0xBF, 0xBD] else scalarUtf8 c
  | c :: d :: rest =>
    if isHighSur c && isLowSur d then
      scalarUtf8 (0x10000 + (c - 0xD800) * 0x400 + (d - 0xDC00)) ++ utf8BytesU rest
    else if isHighSur c || isLowSur c then [0xEF, 0xBF, 0xBD] ++ utf8BytesU (d :: rest)
    else scalarUtf8 c ++ utf8BytesU (d :: rest)

/-- UTF-16 code units of one Unicode character. -/
def charUnits (c : Char) : Units :=
  let n := c.toNat
  if n < 0x10000 then [n]
  else [0xD800 + (n - 0x10000) / 0x400, 0xDC00 + (n - 0x10000) % 0x400]

/-- UTF-16 code units of a Lean string (the JS string it denotes). -/
def toUnits (s : String) : Units := (s.data.map charUnits).flatten

/-- A code-unit sequence is well formed (encodes whole characters) iff it
contains no lone surrogate: every high surrogate is followed by a low one
and every low surrogate is preceded by a high one. -/
def wellFormedU : Units → Bool
  | [] => true
  | c :: rest =>
    if isHighSur c then
      match rest with
      | d :: rest2 => isLowSur d && wellFormedU rest2
      | [] => false
    else if isLowSur c then false
    else wellFormedU rest

/-- Concatenation of a list of code-unit sequences. -/
def joinU (l : List Units) : Units := l.flatten

/-! ## Chunk Assembler (`createTextArchive`, src/index.ts lines 475–595)

State of the assembly loop.  The fields `rawSlices`, `augSlices` and
`rawPerBuffer` are proof instrumentation (ghost fields): they record,
respectively, every slice taken from a file's content before continuation
markers are attached, the same slice after markers are attached, and the
number of slice bytes (markers excluded) placed into each buffer.  They
influence nothing the code computes. -/
structure AsmState where
  buffers : List Units
  currentFileIndex : Nat
  currentChunkSize : Nat
  isContinuingFile : Bool
  currentFileName : Units
  rawSlices : List Units
  augSlices : List Units
  rawPerBuffer : List Nat
  deriving Repr, DecidableEq

/-- `let outputFilesContent: string[] = ['']` etc. (lines 475–479). -/
def initState : AsmState :=
  { buffers := [[]], currentFileIndex := 0, currentChunkSize := 0,
    isContinuingFile := false, currentFileName := [],
    rawSlices := [], augSlices := [], rawPerBuffer := [0] }

/-- Continuation header: `` `\n## Continuation of File: ${currentFileName}\n\n` `` (line 573). -/
def contHeader (name : Units) : Units :=
  toUnits "\n## Continuation of File: " ++ name ++ toUnits "\n\n"

/-- Continuation footer: `` `\n*File continues in next part*\n` `` (line 580). -/
def contFooter : Units := toUnits "\n*File continues in next part*\n"

/-- The shrink loop (lines 561–564): starting from slice length `l` (in
code units), decrement until the slice's UTF-8 byte length fits in `space`
or the length reaches 0. -/
def shrinkLen (content : Units) (ptr space : Nat) : Nat → Nat
  | 0 => 0
  | l + 1 =>
    if space < utf8LenU ((content.drop ptr).take (l + 1)) then
      shrinkLen content ptr space l
    else l + 1

/-- Add `k` to the last entry of a list (ghost bookkeeping helper). -/
def bumpLast (l : List Nat) (k : Nat) : List Nat :=
  match l with
  | [] => [k]
  | [x] => [x + k]
  | x :: xs => x :: bumpLast xs k

/-- The slice length chosen by one loop iteration (lines 552–565): the
naive length `min(remainingChunkSpace, remainingContentLength)` (in code
units), shrunk one code unit at a time while its UTF-8 byte length
overflows the remaining chunk space. -/
def sliceLenOf (maxCS : Nat) (content : Units) (ptr size : Nat) : Nat :=
  let remLen := content.length - ptr
  let sliceLen0 := if 0 < maxCS then min (maxCS - size) remLen else remLen
  if 0 < maxCS ∧ maxCS < size + utf8LenU ((content.drop ptr).take sliceLen0) then
    shrinkLen content ptr (maxCS - size) sliceLen0
  else sliceLen0

/-- The slice (before markers) taken by one iteration (line 557 after
the shrink of lines 561–564). -/
def sliceOf (maxCS : Nat) (c : Units) (ptr size : Nat) : Units :=
  (c.drop ptr).take (sliceLenOf maxCS c ptr size)

/-- The augmented slice one iteration appends to the current buffer
(lines 571–583): the continuation header
`\n## Continuation of File: <name>\n\n` is prepended when a previous
chunk left this file unfinished, and the continuation footer
`\n*File continues in next part*\n` is appended when content remains. -/
def augOf (maxCS : Nat) (c : Units) (ptr : Nat) (st : AsmState) : Units :=
  (if st.isContinuingFile then
    contHeader st.currentFileName ++ sliceOf maxCS c ptr st.currentChunkSize
  else sliceOf maxCS c ptr st.currentChunkSize) ++
    (if ptr + sliceLenOf maxCS c ptr st.currentChunkSize < c.length then
      contFooter
    else [])

/-- One iteration of the chunk-splitting loop body (lines 552–594):
take the slice, attach continuation markers, append the result to the
current buffer, and start a fresh buffer when the bound is reached.
Returns the advanced content pointer and the new state. -/
def asmStep (maxCS : Nat) (relPath content : Units) (ptr : Nat) (st : AsmState) :
    Nat × AsmState :=
  let slice := sliceOf maxCS content ptr st.currentChunkSize
  -- line 568
  let ptr' := ptr + sliceLenOf maxCS content ptr st.currentChunkSize
  -- lines 571–583
  let aug := augOf maxCS content ptr st
  -- lines 586–587
  let st1 : AsmState :=
    { st with
      buffers := st.buffers.set st.currentFileIndex
        ((st.buffers.getD st.currentFileIndex []) ++ aug),
      currentChunkSize := st.currentChunkSize + utf8LenU aug,
      isContinuingFile := decide (ptr' < content.length),
      currentFileName := if ptr' < content.length then relPath else st.currentFileName,
      rawSlices := st.rawSlices ++ [slice],
      augSlices := st.augSlices ++ [aug],
      rawPerBuffer := bumpLast st.rawPerBuffer (utf8LenU slice) }
  -- lines 590–594
  let st2 : AsmState :=
    if 0 < maxCS ∧ maxCS ≤ st1.currentChunkSize then
      { st1 with
        buffers := st1.buffers ++ [[]],
        currentFileIndex := st1.currentFileIndex + 1,
        currentChunkSize := 0,
        rawPerBuffer := st1.rawPerBuffer ++ [0] }
    else st1
  (ptr', st2)

/-- The per-file emission loop (lines 551–595), fuel-indexed: one unit of
fuel per iteration of `while (contentPointer < totalFileContent.length)`.
Returns `none` when the fuel runs out (the JS loop does not terminate on
all inputs, e.g. a 2-byte bound with a 4-byte character). -/
def fileLoop (maxCS : Nat) (relPath content : Units) :
    Nat → Nat → AsmState → Option AsmState
  | fuel, ptr, st =>
    if ptr < content.length then
      match fuel with
      | 0 => none
      | fuel + 1 =>
        let s := asmStep maxCS relPath content ptr st
        fileLoop maxCS relPath content fuel s.1 s.2
    else some st

/-- Emit one file's formatted content into the buffer sequence. -/
def emitFile (fuel maxCS : Nat) (relPath content : Units) (st : AsmState) :
    Option AsmState :=
  fileLoop maxCS relPath content fuel 0 st

/-- Feed a list of (relative path, formatted content) pairs through the
assembly loop in order, each file's while-loop getting `fuel` iterations. -/
def assembleAll (fuel maxCS : Nat) (files : List (Units × Units)) (st : AsmState) :
    Option AsmState :=
  match files with
  | [] => some st
  | (p, c) :: rest =>
    match emitFile fuel maxCS p c st with
    | none => none
    | some st' => assembleAll fuel maxCS rest st'

/-! ## Binary Detector (`isBinaryFile`, lines 182–194) -/

/-- `isBinaryFile`: inspect the first up-to-24 bytes; any byte in
(0,9), (13,32) or equal to 127 classifies the buffer as binary. -/
def isBinaryFile (contentBuffer : List Nat) : Bool :=
  (contentBuffer.take 24).any fun c =>
    (0 < c && c < 9) || (13 < c && c < 32) || (c == 127)

/-! ## UTF-8 decoding (`contentBuffer.toString('utf8')`, line 521) -/

/-- Is the byte a UTF-8 continuation byte (`10xxxxxx`)? -/
def isContByte (b : Nat) : Bool := 0x80 ≤ b && b ≤ 0xBF

/-- Valid second byte of a 3-byte sequence led by `b1`. -/
def validB2of3 (b1 b2 : Nat) : Bool :=
  if b1 == 0xE0 then 0xA0 ≤ b2 && b2 ≤ 0xBF
  else if b1 == 0xED then 0x80 ≤ b2 && b2 ≤ 0x9F
  else isContByte b2

/-- Valid second byte of a 4-byte sequence led by `b1`. -/
def validB2of4 (b1 b2 : Nat) : Bool :=
  if b1 == 0xF0 then 0x90 ≤ b2 && b2 ≤ 0xBF
  else if b1 == 0xF4 then 0x80 ≤ b2 && b2 ≤ 0x8F
  else isContByte b2

/-- Decode a UTF-8 byte sequence to characters the way Node's
`buffer.toString('utf8')` does: well-formed sequences decode to their
scalar values, ill-formed bytes become U+FFFD.  Fuel-indexed for
structural recursion; each step consumes at least one byte, so
`decodeUtf8` supplies the byte count as fuel. -/
def decodeUtf8Go : Nat → List Nat → List Char
  | _, [] => []
  | 0, _ => []
  | fuel + 1, b :: rest =>
    if b < 0x80 then Char.ofNat b :: decodeUtf8Go fuel rest
    else if 0xC2 ≤ b && b ≤ 0xDF then
      match rest with
      | b2 :: rest2 =>
        if isContByte b2 then
          Char.ofNat ((b - 0xC0) * 0x40 + (b2 - 0x80)) :: decodeUtf8Go fuel rest2
        else '�' :: decodeUtf8Go fuel (b2 :: rest2)
      | [] => ['�']
    else if 0xE0 ≤ b && b ≤ 0xEF then
      match rest with
      | b2 :: b3 :: rest3 =>
        if validB2of3 b b2 && isContByte b3 then
          Char.ofNat ((b - 0xE0) * 0x1000 + (b2 - 0x80) * 0x40 + (b3 - 0x80)) ::
            decodeUtf8Go fuel rest3
        else '�' :: decodeUtf8Go fuel (b2 :: b3 :: rest3)
      | [b2] => if validB2of3 b b2 then ['�'] else '�' :: decodeUtf8Go fuel [b2]
      | [] => ['�']
    else if 0xF0 ≤ b && b ≤ 0xF4 then
      match rest with
      | b2 :: b3 :: b4 :: rest4 =>
        if validB2of4 b b2 && isContByte b3 && isContByte b4 then
          Char.ofNat ((b - 0xF0) * 0x40000 + (b2 - 0x80) * 0x1000 +
              (b3 - 0x80) * 0x40 + (b4 - 0x80)) :: decodeUtf8Go fuel rest4
        else '�' :: decodeUtf8Go fuel (b2 :: b3 :: b4 :: rest4)
      | r => '�' :: decodeUtf8Go fuel r
    else '�' :: decodeUtf8Go fuel rest

/-- Decoded string of a byte buffer. -/
def decodeUtf8Str (bytes : List Nat) : String := ⟨decodeUtf8Go bytes.length bytes⟩

/-! ## Content Formatter (lines 520–547, 384–466) -/

/-- ASCII lower-casing, the effect of JS `toLowerCase` on ASCII data
(extensions in the language table are all ASCII). -/
def toLowerAscii (s : String) : String :=
  ⟨s.data.map fun c => if 'A' ≤ c && c ≤ 'Z' then Char.ofNat (c.toNat + 32) else c⟩

/-- Model of Node `path.extname` for ordinary file names: the final
path segment's suffix starting at its last `.`, empty when the segment
has no `.` or only a leading one. -/
def extname (p : String) : String :=
  let base := (p.data.splitOn '/').getLastD []
  match base.reverse.findIdx? (· = '.') with
  | none => ""
  | some i =>
    if i = base.length - 1 then ""
    else ⟨base.drop (base.length - 1 - i)⟩

/-- The fixed extension → language-tag table of
`getLanguageFromExtension` (lines 384–466). -/
def extensionMap : List (String × String) :=
  [(".js", "javascript"), (".ts", "typescript"), (".jsx", "jsx"), (".tsx", "tsx"),
   (".py", "python"), (".java", "java"), (".c", "c"), (".cpp", "cpp"),
   (".h", "cpp"), (".hpp", "cpp"), (".cs", "csharp"), (".go", "go"),
   (".rb", "ruby"), (".php", "php"), (".swift", "swift"), (".kt", "kotlin"),
   (".kts", "kotlin"), (".rs", "rust"), (".sh", "bash"), (".bat", "bat"),
   (".ps1", "powershell"), (".pl", "perl"), (".lua", "lua"), (".sql", "sql"),
   (".scala", "scala"), (".groovy", "groovy"), (".hs", "haskell"),
   (".erl", "erlang"), (".ex", "elixir"), (".exs", "elixir"), (".r", "r"),
   (".jl", "julia"), (".f90", "fortran"), (".f95", "fortran"),
   (".f03", "fortran"), (".clj", "clojure"), (".cljc", "clojure"),
   (".cljs", "clojure"), (".coffee", "coffeescript"), (".dart", "dart"),
   (".elm", "elm"), (".fs", "fsharp"), (".fsi", "fsharp"), (".fsx", "fsharp"),
   (".gd", "gdscript"), (".hbs", "handlebars"), (".idr", "idris"),
   (".nim", "nim"), (".ml", "ocaml"), (".mli", "ocaml"), (".mll", "ocaml"),
   (".mly", "ocaml"), (".purs", "purescript"), (".rkt", "racket"),
   (".vb", "vb.net"), (".vbs", "vbscript"), (".vba", "vba"),
   (".feature", "gherkin"), (".s", "assembly"), (".asm", "assembly"),
   (".sln", "xml"), (".md", "markdown"), (".markdown", "markdown"),
   (".yml", "yaml"), (".yaml", "yaml"), (".json", "json"), (".xml", "xml"),
   (".html", "html"), (".css", "css"), (".scss", "scss"), (".less", "less"),
   (".ini", "ini"), (".conf", ""), (".config", ""), (".toml", "toml"),
   (".tex", "latex"), (".bib", "bibtex"), (".txt", "")]

/-- `getLanguageFromExtension` (lines 384–466): table lookup on the
lower-cased extension; `extensionMap[ext] || ''` yields the empty string
both for absent keys and for keys mapped to the empty string. -/
def getLanguageFromExtension (ext : String) : String :=
  (((extensionMap.find? fun e => e.1 == toLowerAscii ext).map Prod.snd).getD "")

/-- JS whitespace for `String.prototype.trim`. -/
def isJsWs (c : Char) : Bool :=
  c == ' ' || c == '\t' || c == '\n' || c == '\r' ||
  c.toNat == 0x0B || c.toNat == 0x0C || c.toNat == 0xA0 || c.toNat == 0x1680 ||
  (0x2000 ≤ c.toNat && c.toNat ≤ 0x200A) || c.toNat == 0x2028 ||
  c.toNat == 0x2029 || c.toNat == 0x202F || c.toNat == 0x205F ||
  c.toNat == 0x3000 || c.toNat == 0xFEFF

/-- JS `trim`. -/
def jsTrim (s : String) : String :=
  ⟨((s.data.dropWhile isJsWs).reverse.dropWhile isJsWs).reverse⟩

/-- Empty-line stripping (lines 524–529): split on `\n`, keep lines whose
trimmed form is nonempty, rejoin with `\n`. -/
def stripEmptyLinesFn (content : String) : String :=
  String.intercalate "\n" ((content.splitOn "\n").filter fun line => !(jsTrim line).isEmpty)

/-- The per-file header `` `\n## File: ${relativePath}\n\n` `` (line 535). -/
def fileHeader (relativePath : String) : String :=
  "\n## File: " ++ relativePath ++ "\n\n"

/-- Formatted representation of one text file (lines 520–547): header,
then either the content verbatim (markdown) or a fenced code block with
the language tag from the extension table. -/
def formatFile (stripFlag : Bool) (relativePath : String) (rawContent : String) : String :=
  let content := if stripFlag then stripEmptyLinesFn rawContent else rawContent
  let ext := toLowerAscii (extname relativePath)
  let isMarkdown := ext == ".md" || ext == ".markdown"
  let language := getLanguageFromExtension ext
  let fileContent :=
    if isMarkdown then content ++ "\n"
    else "```" ++ language ++ "\n" ++ content ++ "\n```\n"
  fileHeader relativePath ++ fileContent

/-- Per-file pipeline step (lines 515–547): binary files are skipped
entirely (`none`); text files are decoded and formatted. -/
def processFile (stripFlag : Bool) (relativePath : String) (bytes : List Nat) :
    Option String :=
  if isBinaryFile bytes then none
  else some (formatFile stripFlag relativePath (decodeUtf8Str bytes))

/-- The whole archive pipeline on in-memory files (read → binary check →
format → chunk assembly), tree prefix disabled. -/
def createArchive (fuel maxCS : Nat) (stripFlag : Bool)
    (files : List (String × List Nat)) : Option AsmState :=
  assembleAll fuel maxCS
    (files.filterMap fun f =>
      (processFile stripFlag f.1 f.2).map fun c => (toUnits f.1, toUnits c))
    initState

/-! ## Ignore/Filter Engine: glob matching (lines 212–214, 244–266)

Modelled from the spec: the `minimatch` library is an external collaborator
(not part of this repository's sources).  Following the spec's §4.2, a
pattern is split on `/` and matched against the path split on `/` with
standard glob semantics — `*`, `?` and bracket classes within one segment,
`**` spanning any number of segments; with the `matchBase` option, a
pattern containing no slash is matched against the path's base name. -/

/-- Split a bracket class body from the rest of the pattern at `]`. -/
def classSplit : List Char → Option (List Char × List Char)
  | [] => none
  | ']' :: rest => some ([], rest)
  | c :: rest => (classSplit rest).map fun pr => (c :: pr.1, pr.2)

/-- Membership in a list of class items, `a-b` ranges allowed. -/
def memRanges : List Char → Char → Bool
  | a :: '-' :: b :: rest, c => (a ≤ c && c ≤ b) || memRanges rest c
  | a :: rest, c => (a == c) || memRanges rest c
  | [], _ => false

/-- Bracket-class match, `!`/`^` negation allowed. -/
def classMatch (body : List Char) (c : Char) : Bool :=
  match body with
  | '!' :: items => !(memRanges items c)
  | '^' :: items => !(memRanges items c)
  | items => memRanges items c

/-- Glob match of one pattern segment against one path segment
(fuel-indexed; `segMatch` supplies sufficient fuel). -/
def matchSeg : Nat → List Char → List Char → Bool
  | 0, _, _ => false
  | fuel + 1, pat, txt =>
    match pat, txt with
    | [], [] => true
    | [], _ :: _ => false
    | '*' :: ps, t =>
      matchSeg fuel ps t ||
        (match t with
         | [] => false
         | _ :: ts => matchSeg fuel ('*' :: ps) ts)
    | '?' :: ps, _ :: ts => matchSeg fuel ps ts
    | '[' :: ps, c :: ts =>
      (match classSplit ps with
       | some (body, rest) => classMatch body c && matchSeg fuel rest ts
       | none => ('[' == c) && matchSeg fuel ps ts)
    | p :: ps, c :: ts => (p == c) && matchSeg fuel ps ts
    | _ :: _, [] => false

/-- Glob match of one pattern segment with adequate fuel. -/
def segMatch (pat txt : List Char) : Bool :=
  matchSeg (pat.length + txt.length + 1) pat txt

/-- Segment-list glob match; a `**` pattern segment may absorb any number
of path segments. -/
def matchParts : Nat → List (List Char) → List (List Char) → Bool
  | 0, _, _ => false
  | fuel + 1, pat, path =>
    match pat, path with
    | [], [] => true
    | [], _ :: _ => false
    | pp :: pps, qs =>
      if pp = ['*', '*'] then
        matchParts fuel pps qs ||
          (match qs with
           | [] => false
           | _ :: qs' => matchParts fuel (pp :: pps) qs')
      else
        match qs with
        | q :: qs' => segMatch pp q && matchParts fuel pps qs'
        | [] => false

/-- Base name (final `/`-separated segment) of a relative path. -/
def baseNameSeg (p : String) : List Char := (p.data.splitOn '/').getLastD []

/-- Modelled from the spec: `minimatch(path, pattern, { matchBase })`.
With `matchBase` set and a slash-free pattern, a path containing a slash
is matched by its base name alone; otherwise the split pattern is matched
against the split path. -/
def minimatchModel (path pattern : String) (matchBase : Bool) : Bool :=
  if matchBase && !(pattern.data.contains '/') && (path.data.contains '/') then
    segMatch pattern.data (baseNameSeg path)
  else
    matchParts ((pattern.data.splitOn '/').length + (path.data.splitOn '/').length + 1)
      (pattern.data.splitOn '/') (path.data.splitOn '/')

/-- `isPatternRecursive` (lines 212–214): a pattern with no `/` and no
`\` is matched in recursive (basename) mode. -/
def isPatternRecursive (pattern : String) : Bool :=
  !(pattern.data.contains '/') && !(pattern.data.contains '\\')

/-- Include evaluation (lines 244–255): vacuously true when no include
patterns are given; each pattern is matched with `matchBase` exactly when
it is recursive. -/
def includeMatchFn (includePatterns : List String) (relativePath : String) : Bool :=
  includePatterns.isEmpty ||
    includePatterns.any fun pattern =>
      minimatchModel relativePath pattern (isPatternRecursive pattern)

/-- Exclude evaluation (lines 257–263): plain `minimatch` with no
options, i.e. never in basename mode. -/
def excludeMatchFn (excludePatterns : List String) (relativePath : String) : Bool :=
  excludePatterns.any fun pattern => minimatchModel relativePath pattern false

/-- Per-file accept decision (line 265): `includeMatch && !excludeMatch`. -/
def fileAccepted (includePatterns excludePatterns : List String)
    (relativePath : String) : Bool :=
  includeMatchFn includePatterns relativePath &&
    !excludeMatchFn excludePatterns relativePath

/-! ## Tree Builder/Renderer (lines 320–381) -/

/-- `TreeNode` (lines 321–325). -/
inductive TreeNode where
  | mk (name : String) (children : List TreeNode) (isFile : Bool)

/-- Node name. -/
def TreeNode.name : TreeNode → String
  | .mk n _ _ => n

/-- Node children, in insertion order. -/
def TreeNode.children : TreeNode → List TreeNode
  | .mk _ c _ => c

/-- Leaf flag. -/
def TreeNode.isFile : TreeNode → Bool
  | .mk _ _ f => f

/-- `children.find(child => child.name === part)` succeeds (line 337). -/
def hasChild (c : List TreeNode) (part : String) : Bool :=
  c.any fun ch => ch.name == part

/-- Apply `g` to the first child named `part`, leaving the rest alone
(the JS code mutates the node `find` returned). -/
def replaceFirstChild (part : String) (g : TreeNode → TreeNode) :
    List TreeNode → List TreeNode
  | [] => []
  | ch :: cs =>
    if ch.name = part then g ch :: cs else ch :: replaceFirstChild part g cs

/-- Insert one path (as its list of segments) into a tree
(lines 331–347): per segment, descend into the child of that name,
creating it (leaf iff the segment is last) and appending it when
missing. -/
def insertPath : TreeNode → List String → TreeNode
  | t, [] => t
  | .mk n c f, part :: rest =>
    .mk n
      (if hasChild c part then
        replaceFirstChild part (fun ch => insertPath ch rest) c
      else c ++ [insertPath (.mk part [] rest.isEmpty) rest])
      f

/-- `relPath.split(path.sep)`: split a relative path into its segments. -/
def splitPath (p : String) : List String :=
  (p.data.splitOn '/').map List.asString

/-- `buildTree` (lines 328–350): fold the split paths into an unnamed
root. -/
def buildTree (paths : List String) : TreeNode :=
  paths.foldl (fun t p => insertPath t (splitPath p)) (.mk "" [] false)

/-- Lexicographic comparison of character sequences (by code point). -/
def charsCmp : List Char → List Char → Ordering
  | [], [] => .eq
  | [], _ :: _ => .lt
  | _ :: _, [] => .gt
  | a :: as, b :: bs =>
    if a.toNat < b.toNat then .lt
    else if b.toNat < a.toNat then .gt
    else charsCmp as bs

/-- Modelled from the spec: the sibling comparator (lines 367–372) uses
`localeCompare`, an external collaborator; per the spec's §4.3 ordering is
"directories before files; within the same kind, case-sensitive
lexicographic by name", so name comparison is modelled as lexicographic
string comparison. -/
def nodeCmp (a b : TreeNode) : Int :=
  if !a.isFile && b.isFile then -1
  else if a.isFile && !b.isFile then 1
  else
    match charsCmp a.name.data b.name.data with
    | .lt => -1
    | .eq => 0
    | .gt => 1

/-- The comparator as a boolean "sorts no later than". -/
def nodeLe (a b : TreeNode) : Bool := nodeCmp a b ≤ 0

/-- Insert into a sorted sibling list. -/
def insertSorted (a : TreeNode) : List TreeNode → List TreeNode
  | [] => [a]
  | b :: bs => if nodeLe a b then a :: b :: bs else b :: insertSorted a bs

/-- `children.sort(comparator)`: with a consistent comparator and no
ties among siblings (sibling names are unique) the sorted order is the
unique one; modelled as insertion sort by `nodeLe`. -/
def sortC : List TreeNode → List TreeNode
  | [] => []
  | a :: as => insertSorted a (sortC as)

mutual

/-- Number of nodes of a tree (termination measure). -/
def TreeNode.size : TreeNode → Nat
  | .mk _ c _ => 1 + sizeL c

/-- Total number of nodes of a forest. -/
def sizeL : List TreeNode → Nat
  | [] => 0
  | t :: ts => TreeNode.size t + sizeL ts

end

theorem size_pos (t : TreeNode) : 1 ≤ t.size := by
  cases t with
  | mk n c f => simp [TreeNode.size]

theorem size_eq (t : TreeNode) : t.size = 1 + sizeL t.children := by
  cases t with
  | mk n c f => rfl

theorem sizeL_insertSorted (a : TreeNode) (l : List TreeNode) :
    sizeL (insertSorted a l) = a.size + sizeL l := by
  induction l with
  | nil => simp [insertSorted, sizeL]
  | cons b bs ih =>
    simp only [insertSorted]
    by_cases h : nodeLe a b = true
    · simp [h, sizeL]
    · simp [h, sizeL, ih]; omega

theorem sizeL_sortC (l : List TreeNode) : sizeL (sortC l) = sizeL l := by
  induction l with
  | nil => rfl
  | cons a as ih => simp [sortC, sizeL_insertSorted, ih, sizeL]

mutual

/-- `renderTree` (lines 353–381): emit this node's line (root's empty
name emits nothing), sort the children with the sibling comparator, and
render them with last-sibling connectors and carried indentation. -/
def renderTree (node : TreeNode) (pfx : String) (isLast isRoot : Bool) :
    List String :=
  let connector := if isRoot then "" else if isLast then "└── " else "├── "
  let ownLine :=
    if node.name = "" then []
    else [pfx ++ connector ++ node.name ++ (if node.isFile then "" else "/")]
  let newPfx := pfx ++ (if isRoot then "" else if isLast then "    " else "│   ")
  ownLine ++ renderChildren (sortC node.children) newPfx
termination_by 3 * node.size - 2
decreasing_by
  cases node with
  | mk n c f =>
    simp [TreeNode.children, TreeNode.size, sizeL_sortC]
    omega

/-- Render a sibling list; only the final sibling gets `isLast`. -/
def renderChildren : List TreeNode → String → List String
  | [], _ => []
  | [c], pfx => renderTree c pfx true false
  | c :: cs, pfx => renderTree c pfx false false ++ renderChildren cs pfx
termination_by l _ => 3 * sizeL l
decreasing_by
  · have := size_pos c
    simp [sizeL]
    omega
  · have := size_pos c
    simp [sizeL]
    omega
  · have := size_pos c
    simp [sizeL]
    omega

end

mutual

/-- Canonical form of a tree: recursively sort every child list.  The
render of a tree depends only on its canonical form. -/
def canon : TreeNode → TreeNode
  | .mk n c f => .mk n (sortC (canonL c)) f

/-- Canonical forms of a forest, preserving order. -/
def canonL : List TreeNode → List TreeNode
  | [] => []
  | t :: ts => canon t :: canonL ts

end

/-! ## Archive Writer (lines 311–318, 600–614) -/

/-- `` `${index.toString().padStart(2, '0')}` ``. -/
def pad2 (n : Nat) : String :=
  let s := toString n
  if s.length < 2 then "0" ++ s else s

/-- `getOutputFilePath` (lines 312–318): insert `.NN` before the output
file's extension.  (For the resolved absolute output paths the code uses,
`path.join(dirname, basename-without-ext + '.' + NN + ext)` is the input
path with `.NN` spliced in before the extension.) -/
def getOutputFilePath (out : String) (index : Nat) : String :=
  let ext := extname out
  ⟨out.data.take (out.data.length - ext.data.length)⟩ ++ "." ++ pad2 index ++ ext

/-- A flat file system: association of paths to byte contents. -/
abbrev FS := List (String × List Nat)

/-- `existsSync` / file lookup. -/
def fsLookup (fs : FS) (p : String) : Option (List Nat) :=
  (fs.find? fun e => e.1 == p).map Prod.snd

/-- `writeFile`: replace the entry at the path, or create it. -/
def fsWrite (fs : FS) (p : String) (v : List Nat) : FS :=
  match fs with
  | [] => [(p, v)]
  | e :: rest => if e.1 == p then (p, v) :: rest else e :: fsWrite rest p v

/-- Result of the write phase: final file system, colliding path if the
phase aborted, the chunk files written (in order), and the reported count
(`some n` exactly when the success line ran). -/
structure WriteResult where
  fs : FS
  collision : Option String
  written : List (String × List Nat)
  reportedCount : Option Nat
  deriving Repr, DecidableEq

/-- The write loop (lines 600–614): for each buffer derive the target
path (plain output path when there is a single buffer, `.NN`-indexed
otherwise), abort on an existing path unless overwriting, else write. -/
def writeLoop (overwrite : Bool) (out : String) (total : Nat) :
    List Units → Nat → FS → List (String × List Nat) → WriteResult
  | [], _, fs, written => ⟨fs, none, written, some total⟩
  | buf :: rest, i, fs, written =>
    let path := if 1 < total then getOutputFilePath out (i + 1) else out
    if !overwrite && (fsLookup fs path).isSome then ⟨fs, some path, written, none⟩
    else
      writeLoop overwrite out total rest (i + 1) (fsWrite fs path (utf8BytesU buf))
        (written ++ [(path, utf8BytesU buf)])

/-- The whole write phase on a buffer list. -/
def writePhase (overwrite : Bool) (out : String) (bufs : List Units) (fs : FS) :
    WriteResult :=
  writeLoop overwrite out bufs.length bufs 0 fs []

/-! ## Assembler invariants -/

theorem joinU_nil : joinU [] = [] := rfl

theorem joinU_cons (a : Units) (l : List Units) : joinU (a :: l) = a ++ joinU l := rfl

theorem joinU_append (l1 l2 : List Units) :
    joinU (l1 ++ l2) = joinU l1 ++ joinU l2 := by
  simp [joinU]

/-- The state is well shaped: the current buffer index points at the last
buffer, and the ghost per-buffer tally tracks the buffer list. -/
def GoodState (st : AsmState) : Prop :=
  st.currentFileIndex + 1 = st.buffers.length ∧
  st.rawPerBuffer.length = st.buffers.length

theorem goodState_init : GoodState initState := by
  constructor <;> rfl

theorem goodState_buffers {st : AsmState} (hG : GoodState st) :
    ∃ bs b, st.buffers = bs ++ [b] ∧ st.currentFileIndex = bs.length := by
  obtain ⟨h1, h2⟩ := hG
  have hne : st.buffers ≠ [] := by
    intro h
    rw [h] at h1
    simp at h1
  refine ⟨st.buffers.dropLast, st.buffers.getLast hne, ?_, ?_⟩
  · exact (List.dropLast_append_getLast hne).symm
  · have := List.length_dropLast st.buffers
    omega

/-- Appending to the last buffer appends to the concatenation. -/
theorem joinU_set_last (bs : List Units) (b x : Units) :
    joinU ((bs ++ [b]).set bs.length (((bs ++ [b]).getD bs.length []) ++ x)) =
      joinU (bs ++ [b]) ++ x := by
  induction bs with
  | nil => simp [joinU]
  | cons a as ih =>
    simp only [List.cons_append, List.length_cons, List.getD_cons_succ,
      List.set_cons_succ, joinU_cons, ih]
    simp [joinU]

/-- An augmented slice is the raw slice with an optional continuation
header in front and an optional continuation footer behind. -/
def IsAug (raw aug : Units) : Prop :=
  ∃ h f : Units, (h = [] ∨ ∃ nm, h = contHeader nm) ∧
    (f = [] ∨ f = contFooter) ∧ aug = h ++ raw ++ f

theorem isAug_augOf (maxCS : Nat) (c : Units) (ptr : Nat) (st : AsmState) :
    IsAug (sliceOf maxCS c ptr st.currentChunkSize) (augOf maxCS c ptr st) := by
  refine ⟨if st.isContinuingFile then contHeader st.currentFileName else [],
    if ptr + sliceLenOf maxCS c ptr st.currentChunkSize < c.length then contFooter else [],
    ?_, ?_, ?_⟩
  · cases h : st.isContinuingFile <;> simp
  · split <;> simp
  · unfold augOf
    cases h : st.isContinuingFile <;> simp

theorem bumpLast_length (l : List Nat) (k : Nat) (h : l ≠ []) :
    (bumpLast l k).length = l.length := by
  induction l with
  | nil => simp at h
  | cons a t ih =>
    cases t with
    | nil => rfl
    | cons b t2 =>
      simp only [bumpLast, List.length_cons]
      rw [ih (by simp)]
      simp

theorem asmStep_fst (maxCS : Nat) (p c : Units) (ptr : Nat) (st : AsmState) :
    (asmStep maxCS p c ptr st).1 = ptr + sliceLenOf maxCS c ptr st.currentChunkSize :=
  rfl

theorem asmStep_rawSlices (maxCS : Nat) (p c : Units) (ptr : Nat) (st : AsmState) :
    (asmStep maxCS p c ptr st).2.rawSlices =
      st.rawSlices ++ [sliceOf maxCS c ptr st.currentChunkSize] := by
  simp only [asmStep]
  split <;> rfl

theorem asmStep_augSlices (maxCS : Nat) (p c : Units) (ptr : Nat) (st : AsmState) :
    (asmStep maxCS p c ptr st).2.augSlices =
      st.augSlices ++ [augOf maxCS c ptr st] := by
  simp only [asmStep]
  split <;> rfl

theorem asmStep_isCont (maxCS : Nat) (p c : Units) (ptr : Nat) (st : AsmState) :
    (asmStep maxCS p c ptr st).2.isContinuingFile =
      decide (ptr + sliceLenOf maxCS c ptr st.currentChunkSize < c.length) := by
  simp only [asmStep]
  split <;> rfl

theorem asmStep_goodState (maxCS : Nat) (p c : Units) (ptr : Nat) (st : AsmState)
    (hG : GoodState st) :
    GoodState (asmStep maxCS p c ptr st).2 := by
  obtain ⟨h1, h2⟩ := hG
  have hne : st.rawPerBuffer ≠ [] := by
    intro h
    rw [h] at h2
    simp at h2
    omega
  have hbum := bumpLast_length st.rawPerBuffer
    (utf8LenU (sliceOf maxCS c ptr st.currentChunkSize)) hne
  constructor
  · simp only [asmStep]
    split <;> simp_all
  · simp only [asmStep]
    split <;> simp_all

theorem asmStep_joinBuffers (maxCS : Nat) (p c : Units) (ptr : Nat) (st : AsmState)
    (hG : GoodState st) :
    joinU (asmStep maxCS p c ptr st).2.buffers =
      joinU st.buffers ++ augOf maxCS c ptr st := by
  obtain ⟨bs, b, hb, hidx⟩ := goodState_buffers hG
  have key : joinU (st.buffers.set st.currentFileIndex
      ((st.buffers.getD st.currentFileIndex []) ++ augOf maxCS c ptr st)) =
      joinU st.buffers ++ augOf maxCS c ptr st := by
    rw [hb, hidx]
    exact joinU_set_last bs b _
  simp only [asmStep]
  split
  · simp only [joinU_append]
    rw [key]
    simp [joinU]
  · exact key

theorem drop_take_drop (c : Units) (ptr L : Nat) :
    (c.drop ptr).take L ++ c.drop (ptr + L) = c.drop ptr := by
  have h1 : c.drop (ptr + L) = (c.drop ptr).drop L := by
    rw [List.drop_drop, Nat.add_comm]
  rw [h1, List.take_append_drop]

/-- Main per-file loop invariant: a successful run of the emission loop
extends the ghost slice lists by slices whose concatenation is exactly
the not-yet-emitted content, each augmented slice is its raw slice with
optional continuation markers, and the buffers grow by exactly the
concatenation of the augmented slices. -/
theorem fileLoop_spec (maxCS : Nat) (p c : Units) :
    ∀ (fuel ptr : Nat) (st st' : AsmState), GoodState st →
      fileLoop maxCS p c fuel ptr st = some st' →
      GoodState st' ∧
      ∃ raws augs,
        st'.rawSlices = st.rawSlices ++ raws ∧
        st'.augSlices = st.augSlices ++ augs ∧
        List.Forall₂ IsAug raws augs ∧
        joinU raws = c.drop ptr ∧
        joinU st'.buffers = joinU st.buffers ++ joinU augs := by
  intro fuel
  induction fuel with
  | zero =>
    intro ptr st st' hG hrun
    rw [fileLoop] at hrun
    by_cases h : ptr < c.length
    · simp [h] at hrun
    · simp only [h, if_false] at hrun
      cases hrun
      refine ⟨hG, [], [], by simp, by simp, List.Forall₂.nil, ?_, by simp [joinU]⟩
      simp [joinU, List.drop_eq_nil_of_le (le_of_not_lt h)]
  | succ f ih =>
    intro ptr st st' hG hrun
    rw [fileLoop] at hrun
    by_cases h : ptr < c.length
    · simp only [h, if_true] at hrun
      obtain ⟨hG', raws, augs, hr, ha, hfa, hjr, hjb⟩ :=
        ih (asmStep maxCS p c ptr st).1 (asmStep maxCS p c ptr st).2 st'
          (asmStep_goodState maxCS p c ptr st hG) hrun
      rw [asmStep_fst] at hjr
      refine ⟨hG', sliceOf maxCS c ptr st.currentChunkSize :: raws,
        augOf maxCS c ptr st :: augs, ?_, ?_, ?_, ?_, ?_⟩
      · rw [hr, asmStep_rawSlices]
        simp
      · rw [ha, asmStep_augSlices]
        simp
      · exact List.Forall₂.cons (isAug_augOf maxCS c ptr st) hfa
      · rw [joinU_cons, hjr, sliceOf]
        exact drop_take_drop c ptr _
      · rw [hjb, asmStep_joinBuffers maxCS p c ptr st hG, joinU_cons]
        simp [List.append_assoc]
    · simp only [h, if_false] at hrun
      cases hrun
      refine ⟨hG, [], [], by simp, by simp, List.Forall₂.nil, ?_, by simp [joinU]⟩
      simp [joinU, List.drop_eq_nil_of_le (le_of_not_lt h)]

/-- The same invariant lifted to a whole run over a file list: the raw
slices concatenate to the concatenation of all formatted contents in
traversal order. -/
theorem assembleAll_spec (fuel maxCS : Nat) :
    ∀ (files : List (Units × Units)) (st st' : AsmState), GoodState st →
      assembleAll fuel maxCS files st = some st' →
      GoodState st' ∧
      ∃ raws augs,
        st'.rawSlices = st.rawSlices ++ raws ∧
        st'.augSlices = st.augSlices ++ augs ∧
        List.Forall₂ IsAug raws augs ∧
        joinU raws = joinU (files.map Prod.snd) ∧
        joinU st'.buffers = joinU st.buffers ++ joinU augs := by
  intro files
  induction files with
  | nil =>
    intro st st' hG hrun
    simp only [assembleAll] at hrun
    cases hrun
    exact ⟨hG, [], [], by simp, by simp, List.Forall₂.nil, by simp [joinU], by simp [joinU]⟩
  | cons fc rest ih =>
    obtain ⟨fp, fcont⟩ := fc
    intro st st' hG hrun
    rw [assembleAll] at hrun
    cases hblk : emitFile fuel maxCS fp fcont st with
    | none => rw [hblk] at hrun; cases hrun
    | some st1 =>
      rw [hblk] at hrun
      obtain ⟨hG1, raws1, augs1, hr1, ha1, hfa1, hjr1, hjb1⟩ :=
        fileLoop_spec maxCS fp fcont fuel 0 st st1 hG hblk
      obtain ⟨hG', raws2, augs2, hr2, ha2, hfa2, hjr2, hjb2⟩ := ih st1 st' hG1 hrun
      refine ⟨hG', raws1 ++ raws2, augs1 ++ augs2, ?_, ?_, ?_, ?_, ?_⟩
      · rw [hr2, hr1, List.append_assoc]
      · rw [ha2, ha1, List.append_assoc]
      · exact List.rel_append hfa1 hfa2
      · rw [joinU_append, hjr1, hjr2]
        simp [joinU]
      · rw [hjb2, hjb1, joinU_append, List.append_assoc]

/-! ## Claim C7: binary detection -/

/-- C7 (counterexample).  The claim says a file whose first 24 bytes
contain the byte 0x00 is classified binary and produces no output.  The
code's range check `charCode > 0 && charCode < 9` explicitly permits 0,
so a file beginning with a NUL byte is classified as text and is fully
formatted and emitted. -/
theorem claim7_counterexample :
    isBinaryFile [0, 104, 105] = false ∧
    processFile false "a.ts" [0, 104, 105] =
      some "\n## File: a.ts\n\n```typescript\n\x00hi\n```\n" := by
  constructor
  · rfl
  · decide

/-- C7 (amended).  A file whose first 24 bytes contain a byte in (0,9),
(13,32) or equal to 127 is classified binary and the pipeline emits
nothing for it; a file whose first 24 bytes are printable ASCII
(32–126) is classified text and is formatted and emitted.  (Byte 0x00 is
explicitly permitted by the detector, unlike what the claim says.) -/
theorem claim7_amended (bytes : List Nat) :
    ((∃ b ∈ bytes.take 24, (0 < b ∧ b < 9) ∨ (13 < b ∧ b < 32) ∨ b = 127) →
      isBinaryFile bytes = true ∧
      ∀ stripFlag rel, processFile stripFlag rel bytes = none) ∧
    ((∀ b ∈ bytes.take 24, 32 ≤ b ∧ b ≤ 126) →
      isBinaryFile bytes = false ∧
      ∀ stripFlag rel, processFile stripFlag rel bytes =
        some (formatFile stripFlag rel (decodeUtf8Str bytes))) := by
  constructor
  · rintro ⟨b, hb, hcond⟩
    have hbin : isBinaryFile bytes = true := by
      simp only [isBinaryFile, List.any_eq_true]
      refine ⟨b, hb, ?_⟩
      simp only [Bool.or_eq_true, Bool.and_eq_true, decide_eq_true_eq, beq_iff_eq]
      omega
    exact ⟨hbin, fun stripFlag rel => by simp [processFile, hbin]⟩
  · intro h
    have hbin : isBinaryFile bytes = false := by
      simp only [isBinaryFile, List.any_eq_false]
      intro b hb
      have := h b hb
      simp only [Bool.or_eq_true, Bool.and_eq_true, decide_eq_true_eq, beq_iff_eq]
      omega
    exact ⟨hbin, fun stripFlag rel => by simp [processFile, hbin]⟩

/-- C7 (witness): the amended claim at two concrete buffers. -/
theorem claim7_witness :
    (isBinaryFile [7] = true ∧ ∀ stripFlag rel, processFile stripFlag rel [7] = none) ∧
    (isBinaryFile [104] = false ∧ ∀ stripFlag rel, processFile stripFlag rel [104] =
      some (formatFile stripFlag rel (decodeUtf8Str [104]))) :=
  ⟨(claim7_amended [7]).1 (by decide), (claim7_amended [104]).2 (by decide)⟩

/-! ## Claim C8: per-file formatting -/

/-- C8.  A markdown file (lower-cased extension `.md`/`.markdown`) is
formatted as the header line plus the content verbatim with no fence;
any other file is formatted as the header line plus a fenced block whose
opening fence carries the extension table's language tag; extensions
absent from the table get the empty tag; stripping empty lines happens
before formatting. -/
theorem claim8 (relativePath content : String) :
    (toLowerAscii (extname relativePath) = ".md" ∨
        toLowerAscii (extname relativePath) = ".markdown" →
      formatFile false relativePath content =
        fileHeader relativePath ++ (content ++ "\n")) ∧
    (toLowerAscii (extname relativePath) ≠ ".md" →
      toLowerAscii (extname relativePath) ≠ ".markdown" →
      formatFile false relativePath content =
        fileHeader relativePath ++
          ("```" ++ getLanguageFromExtension (toLowerAscii (extname relativePath)) ++
            "\n" ++ content ++ "\n```\n")) ∧
    (∀ ext : String, (∀ e ∈ extensionMap, e.1 ≠ toLowerAscii ext) →
      getLanguageFromExtension ext = "") ∧
    formatFile true relativePath content =
      formatFile false relativePath (stripEmptyLinesFn content) := by
  refine ⟨?_, ?_, ?_, ?_⟩
  · intro h
    have hb : (toLowerAscii (extname relativePath) == ".md" ||
        toLowerAscii (extname relativePath) == ".markdown") = true := by
      rcases h with h | h <;> simp [h]
    simp [formatFile, hb]
  · intro h1 h2
    have hb : (toLowerAscii (extname relativePath) == ".md" ||
        toLowerAscii (extname relativePath) == ".markdown") = false := by
      simp [h1, h2]
    simp [formatFile, hb]
  · intro ext h
    have hf : extensionMap.find? (fun e => e.1 == toLowerAscii ext) = none := by
      apply List.find?_eq_none.mpr
      intro e he
      simpa using h e he
    simp [getLanguageFromExtension, hf]
  · rfl

/-- C8 (witness): the formatting equations at concrete files. -/
theorem claim8_witness :
    formatFile false "doc.md" "hello" = fileHeader "doc.md" ++ ("hello" ++ "\n") ∧
    formatFile false "a.ts" "hello" =
      fileHeader "a.ts" ++
        ("```" ++ getLanguageFromExtension (toLowerAscii (extname "a.ts")) ++
          "\n" ++ "hello" ++ "\n```\n") ∧
    getLanguageFromExtension ".zzz" = "" :=
  ⟨(claim8 "doc.md" "hello").1 (Or.inl (by decide)),
   (claim8 "a.ts" "hello").2.1 (by decide) (by decide),
   (claim8 "x" "y").2.2.1 ".zzz" (by decide)⟩

/-! ## Claim C4: include/exclude pattern modes -/

/-- C4 (counterexample).  The claim says a pattern with no separator
matches the base name at any depth for include *and* exclude patterns.
Exclude patterns are evaluated by `minimatch(relativePath, pattern)` with
no `matchBase` option (line 259), so the separator-free exclude pattern
`skip.ts` does *not* match `src/skip.ts` (whose base name it would
match), and the file stays accepted. -/
theorem claim4_counterexample :
    isPatternRecursive "skip.ts" = true ∧
    minimatchModel "src/skip.ts" "skip.ts" true = true ∧
    excludeMatchFn ["skip.ts"] "src/skip.ts" = false ∧
    fileAccepted [] ["skip.ts"] "src/skip.ts" = true := by
  refine ⟨by decide, by decide, by decide, by decide⟩

/-- C4 (amended).  Include patterns without a separator are matched
against the base name at any depth; exclude patterns are always matched
against the full source-root-relative path; with include `*.ts` and
exclude `src/skip.ts`, `src/main.ts` and `a/b/c/deep.ts` are included
and `src/skip.ts` is excluded. -/
theorem claim4_amended :
    (∀ (path pattern : String), isPatternRecursive pattern = true →
      path.data.contains '/' = true →
      includeMatchFn [pattern] path = segMatch pattern.data (baseNameSeg path)) ∧
    (∀ (path pattern : String),
      excludeMatchFn [pattern] path =
        matchParts ((pattern.data.splitOn '/').length + (path.data.splitOn '/').length + 1)
          (pattern.data.splitOn '/') (path.data.splitOn '/')) ∧
    fileAccepted ["*.ts"] ["src/skip.ts"] "src/main.ts" = true ∧
    fileAccepted ["*.ts"] ["src/skip.ts"] "a/b/c/deep.ts" = true ∧
    fileAccepted ["*.ts"] ["src/skip.ts"] "src/skip.ts" = false := by
  refine ⟨?_, ?_, by decide, by decide, by decide⟩
  · intro path pattern hrec hsep
    have hns : pattern.data.contains '/' = false := by
      simp only [isPatternRecursive, Bool.and_eq_true, Bool.not_eq_true'] at hrec
      exact hrec.1
    simp only [includeMatchFn, List.isEmpty_cons, List.any_cons, List.any_nil,
      Bool.or_false, Bool.false_or, hrec]
    simp only [minimatchModel, hns, hsep, Bool.not_false, Bool.true_and,
      Bool.and_true, if_true]
  · intro path pattern
    simp [excludeMatchFn, minimatchModel]

/-- C4 (witness): the amended claim's mode equations at concrete inputs. -/
theorem claim4_witness :
    includeMatchFn ["*.md"] "a/b/readme.md" =
      segMatch "*.md".data (baseNameSeg "a/b/readme.md") ∧
    excludeMatchFn ["skip.ts"] "src/skip.ts" =
      matchParts (("skip.ts".data.splitOn '/').length +
          ("src/skip.ts".data.splitOn '/').length + 1)
        ("skip.ts".data.splitOn '/') ("src/skip.ts".data.splitOn '/') :=
  ⟨claim4_amended.1 "a/b/readme.md" "*.md" (by decide) (by decide),
   claim4_amended.2.1 "src/skip.ts" "skip.ts"⟩

/-! ## Claim C1: reconstruction of the formatted contents -/

/-- Delete every occurrence of the pattern `pat` (leftmost-first,
non-overlapping) from a byte list.  Fuel-indexed for structural
recursion; each step consumes at least one element. -/
def stripAllGo (pat : List Nat) : Nat → List Nat → List Nat
  | _, [] => []
  | 0, l => l
  | fuel + 1, x :: xs =>
    if pat ≠ [] ∧ pat.isPrefixOf (x :: xs) then
      stripAllGo pat fuel ((x :: xs).drop pat.length)
    else x :: stripAllGo pat fuel xs

/-- Delete every occurrence of `pat` from `l`. -/
def stripAll (pat l : List Nat) : List Nat := stripAllGo pat l.length l

/-- C1 (counterexample).  For the file `f` with content `a😀` and bound
B = 4, the shrink loop stops the first slice after the high surrogate of
😀 (a one-code-unit shrink step lands inside the astral character), so
the two buffers hold the two surrogate halves.  Each half is written as
the replacement character `EF BF BD`, so concatenating the buffers'
UTF-8 bytes and deleting the inserted continuation header and footer
yields `61 EF BF BD EF BF BD`, not the original `61 F0 9F 98 80` —
byte-for-byte reconstruction fails. -/
theorem claim1_counterexample :
    (assembleAll 10 4 [(toUnits "f", toUnits "a😀")] initState).map
        (fun st => stripAll (utf8BytesU (contHeader (toUnits "f")))
          (stripAll (utf8BytesU contFooter) (joinU (st.buffers.map utf8BytesU)))) ≠
      some (utf8BytesU (toUnits "a😀")) ∧
    (assembleAll 10 4 [(toUnits "f", toUnits "a😀")] initState).isSome = true := by
  constructor
  · decide
  · decide

/-- C1 (amended).  At the level of JavaScript string contents (UTF-16
code units) the reconstruction invariant holds for every run: the raw
slices concatenate byte-for-byte (code-unit for code-unit) to the
concatenation of the formatted per-file contents in traversal order, the
buffers' concatenation is the concatenation of the augmented slices, and
every augmented slice is its raw slice with an optional inserted
continuation header and footer — so stripping the inserted markers
reconstructs the contents exactly.  (Byte-for-byte equality of the
separately UTF-8-encoded buffers additionally needs no chunk boundary to
split a surrogate pair, as the counterexample shows.) -/
theorem claim1_amended (fuel maxCS : Nat) (files : List (Units × Units)) (st : AsmState)
    (_hB : 0 < maxCS)
    (hrun : assembleAll fuel maxCS files initState = some st) :
    joinU st.rawSlices = joinU (files.map Prod.snd) ∧
    joinU st.buffers = joinU st.augSlices ∧
    List.Forall₂ IsAug st.rawSlices st.augSlices := by
  obtain ⟨hG, raws, augs, hr, ha, hfa, hjr, hjb⟩ :=
    assembleAll_spec fuel maxCS files initState st goodState_init hrun
  have hr' : st.rawSlices = raws := by simpa [initState] using hr
  have ha' : st.augSlices = augs := by simpa [initState] using ha
  refine ⟨?_, ?_, ?_⟩
  · rw [hr']
    exact hjr
  · rw [hjb, ha']
    simp [initState, joinU]
  · rw [hr', ha']
    exact hfa

/-- Concrete run shared by witnesses: one two-byte ASCII file `f`
containing `ab`, bound 5 — the resulting assembler state. -/
def sampleRun1 : AsmState :=
  { buffers := [[97, 98]], currentFileIndex := 0, currentChunkSize := 2,
    isContinuingFile := false, currentFileName := [],
    rawSlices := [[97, 98]], augSlices := [[97, 98]], rawPerBuffer := [2] }

/-- C1 (witness): the amended claim at the concrete run. -/
theorem claim1_witness :
    joinU sampleRun1.rawSlices = joinU ([(toUnits "f", toUnits "ab")].map Prod.snd) ∧
    joinU sampleRun1.buffers = joinU sampleRun1.augSlices ∧
    List.Forall₂ IsAug sampleRun1.rawSlices sampleRun1.augSlices :=
  claim1_amended 10 5 [(toUnits "f", toUnits "ab")] sampleRun1 (by decide) (by decide)

/-! ## Claim C5: unbounded runs produce exactly one buffer -/

/-- Unfolding: the loop exits when the pointer reaches the end. -/
theorem fileLoop_done (maxCS : Nat) (p c : Units) (fuel ptr : Nat) (st : AsmState)
    (h : ¬ ptr < c.length) : fileLoop maxCS p c fuel ptr st = some st := by
  cases fuel with
  | zero =>
    show (if ptr < c.length then none else some st) = some st
    rw [if_neg h]
  | succ f =>
    show (if ptr < c.length then
        fileLoop maxCS p c f (asmStep maxCS p c ptr st).1 (asmStep maxCS p c ptr st).2
      else some st) = some st
    rw [if_neg h]

/-- Unfolding: one iteration of the loop. -/
theorem fileLoop_succ (maxCS : Nat) (p c : Units) (f ptr : Nat) (st : AsmState)
    (h : ptr < c.length) :
    fileLoop maxCS p c (f + 1) ptr st =
      fileLoop maxCS p c f (asmStep maxCS p c ptr st).1 (asmStep maxCS p c ptr st).2 := by
  show (if ptr < c.length then
      fileLoop maxCS p c f (asmStep maxCS p c ptr st).1 (asmStep maxCS p c ptr st).2
    else some st) = _
  rw [if_pos h]

theorem sliceLenOf_unbounded (c : Units) (ptr size : Nat) :
    sliceLenOf 0 c ptr size = c.length - ptr := by
  simp [sliceLenOf]

theorem sliceOf_unbounded (c : Units) (ptr size : Nat) :
    sliceOf 0 c ptr size = c.drop ptr := by
  rw [sliceOf, sliceLenOf_unbounded]
  apply List.take_of_length_le
  simp

theorem augOf_unbounded (c : Units) (ptr : Nat) (st : AsmState)
    (hcont : st.isContinuingFile = false) (hptr : ptr ≤ c.length) :
    augOf 0 c ptr st = c.drop ptr := by
  unfold augOf
  rw [hcont, sliceOf_unbounded, sliceLenOf_unbounded]
  have h : ¬ ptr + (c.length - ptr) < c.length := by omega
  simp [h]

/-- With no size bound, the emission loop takes the whole remaining
content in a single iteration and never starts a new buffer. -/
theorem emitFile_unbounded (p c : Units) (f : Nat) (st : AsmState)
    (hcont : st.isContinuingFile = false) (hne : c ≠ []) :
    emitFile (f + 1) 0 p c st = some
      { st with
        buffers := st.buffers.set st.currentFileIndex
          ((st.buffers.getD st.currentFileIndex []) ++ c),
        currentChunkSize := st.currentChunkSize + utf8LenU c,
        isContinuingFile := false,
        currentFileName := st.currentFileName,
        rawSlices := st.rawSlices ++ [c],
        augSlices := st.augSlices ++ [c],
        rawPerBuffer := bumpLast st.rawPerBuffer (utf8LenU c) } := by
  have hpos : 0 < c.length := List.length_pos.mpr hne
  have hfst : (asmStep 0 p c 0 st).1 = c.length := by
    rw [asmStep_fst, sliceLenOf_unbounded]
    omega
  have hslice : sliceOf 0 c 0 st.currentChunkSize = c := by
    rw [sliceOf_unbounded, List.drop_zero]
  have haug : augOf 0 c 0 st = c := by
    rw [augOf_unbounded c 0 st hcont (Nat.zero_le _), List.drop_zero]
  have hstep : (asmStep 0 p c 0 st).2 =
      { st with
        buffers := st.buffers.set st.currentFileIndex
          ((st.buffers.getD st.currentFileIndex []) ++ c),
        currentChunkSize := st.currentChunkSize + utf8LenU c,
        isContinuingFile := false,
        currentFileName := st.currentFileName,
        rawSlices := st.rawSlices ++ [c],
        augSlices := st.augSlices ++ [c],
        rawPerBuffer := bumpLast st.rawPerBuffer (utf8LenU c) } := by
    have hnc : ¬ (0 + sliceLenOf 0 c 0 st.currentChunkSize < c.length) := by
      rw [sliceLenOf_unbounded]
      omega
    simp only [asmStep]
    rw [if_neg (by simp)]
    simp [hslice, haug, hnc, sliceLenOf_unbounded]
  unfold emitFile
  rw [fileLoop_succ 0 p c f 0 st hpos, hfst, hstep]
  exact fileLoop_done 0 p c f c.length _ (lt_irrefl _)

/-- The emission loop does nothing on empty content. -/
theorem emitFile_nilContent (fuel maxCS : Nat) (p : Units) (st : AsmState) :
    emitFile fuel maxCS p [] st = some st :=
  fileLoop_done maxCS p [] fuel 0 st (by simp)

/-- Appending to the last element of a snoc list. -/
theorem set_last_append (bs : List Units) (b x : Units) :
    (bs ++ [b]).set bs.length (((bs ++ [b]).getD bs.length []) ++ x) =
      bs ++ [b ++ x] := by
  induction bs with
  | nil => simp
  | cons a as ih =>
    simp only [List.cons_append, List.length_cons, List.getD_cons_succ,
      List.set_cons_succ, ih]

/-- Unbounded whole-run behaviour: the single buffer accumulates the
concatenation of all contents, and no continuation markers appear. -/
theorem assembleAll_unbounded (f : Nat) :
    ∀ (files : List (Units × Units)) (st : AsmState),
      st.isContinuingFile = false →
      ∀ (bs : List Units) (B : Units), st.buffers = bs ++ [B] →
        st.currentFileIndex = bs.length →
        ∃ st', assembleAll (f + 1) 0 files st = some st' ∧
          st'.buffers = bs ++ [B ++ joinU (files.map Prod.snd)] ∧
          st'.currentFileIndex = bs.length ∧
          st'.isContinuingFile = false ∧
          (st.augSlices = st.rawSlices → st'.augSlices = st'.rawSlices) := by
  intro files
  induction files with
  | nil =>
    intro st hcont bs B hb hidx
    refine ⟨st, rfl, ?_, hidx, hcont, fun h => h⟩
    simp [hb, joinU]
  | cons fc rest ih =>
    obtain ⟨fp, c⟩ := fc
    intro st hcont bs B hb hidx
    by_cases hc : c = []
    · subst hc
      rw [assembleAll, emitFile_nilContent]
      obtain ⟨st', h1, h2, h3, h4, h5⟩ := ih st hcont bs B hb hidx
      exact ⟨st', h1, by simpa [joinU] using h2, h3, h4, h5⟩
    · rw [assembleAll, emitFile_unbounded fp c f st hcont hc]
      have hb1 : ({ st with
          buffers := st.buffers.set st.currentFileIndex
            ((st.buffers.getD st.currentFileIndex []) ++ c),
          currentChunkSize := st.currentChunkSize + utf8LenU c,
          isContinuingFile := false,
          currentFileName := st.currentFileName,
          rawSlices := st.rawSlices ++ [c],
          augSlices := st.augSlices ++ [c],
          rawPerBuffer := bumpLast st.rawPerBuffer (utf8LenU c) } : AsmState).buffers =
          bs ++ [B ++ c] := by
        simp only [hb, hidx]
        exact set_last_append bs B c
      obtain ⟨st', h1, h2, h3, h4, h5⟩ := ih _ rfl bs (B ++ c) hb1 (by simp [hidx])
      refine ⟨st', h1, ?_, h3, h4, ?_⟩
      · rw [h2]
        simp [joinU]
      · intro h
        apply h5
        simp [h]

/-- C5.  With no size bound (maxChunkSize = 0) exactly one output buffer
is produced; it is the concatenation of all formatted contents, each
file's formatted content occurs in it contiguously, and no continuation
marker is inserted anywhere (every augmented slice equals its raw
slice). -/
theorem claim5 (f : Nat) (files : List (Units × Units)) :
    ∃ st, assembleAll (f + 1) 0 files initState = some st ∧
      st.buffers = [joinU (files.map Prod.snd)] ∧
      st.augSlices = st.rawSlices ∧
      ∀ fl ∈ files, ∃ u v, joinU (files.map Prod.snd) = u ++ fl.2 ++ v := by
  obtain ⟨st', h1, h2, h3, h4, h5⟩ :=
    assembleAll_unbounded f files initState rfl [] [] rfl rfl
  refine ⟨st', h1, by simpa using h2, h5 rfl, ?_⟩
  intro fl hfl
  obtain ⟨l1, l2, hsplit⟩ := List.append_of_mem hfl
  subst hsplit
  exact ⟨joinU (l1.map Prod.snd), joinU (l2.map Prod.snd), by simp [joinU]⟩

/-- C5 (witness): a concrete unbounded two-file run. -/
theorem claim5_witness :
    ∃ st, assembleAll 1 0 [(toUnits "f", toUnits "ab"), (toUnits "g", toUnits "c")]
        initState = some st ∧
      st.buffers = [joinU ([(toUnits "f", toUnits "ab"),
        (toUnits "g", toUnits "c")].map Prod.snd)] ∧
      st.augSlices = st.rawSlices ∧
      ∀ fl ∈ [(toUnits "f", toUnits "ab"), (toUnits "g", toUnits "c")],
        ∃ u v, joinU ([(toUnits "f", toUnits "ab"),
          (toUnits "g", toUnits "c")].map Prod.snd) = u ++ fl.2 ++ v :=
  claim5 0 [(toUnits "f", toUnits "ab"), (toUnits "g", toUnits "c")]

/-! ## Claims C9/C10: the write phase -/

/-- The target path for the buffer at 0-based position `i` (lines
601–602): the plain output path for a single buffer, the two-digit
indexed path otherwise. -/
def pathAt (out : String) (total i : Nat) : String :=
  if 1 < total then getOutputFilePath out (i + 1) else out

/-- The (path, bytes) pairs the write loop would produce from position
`i` on. -/
def pathsFrom (out : String) (total : Nat) : Nat → List Units → List (String × List Nat)
  | _, [] => []
  | i, buf :: rest => (pathAt out total i, utf8BytesU buf) :: pathsFrom out total (i + 1) rest

/-- Apply a list of writes to the file system in order. -/
def fsWriteAll (fs : FS) (l : List (String × List Nat)) : FS :=
  l.foldl (fun a e => fsWrite a e.1 e.2) fs

/-- With overwriting permitted the write loop writes every buffer and
reports the total count. -/
theorem writeLoop_overwrite (out : String) (total : Nat) :
    ∀ (bufs : List Units) (i : Nat) (fs : FS) (written : List (String × List Nat)),
      writeLoop true out total bufs i fs written =
        ⟨fsWriteAll fs (pathsFrom out total i bufs), none,
          written ++ pathsFrom out total i bufs, some total⟩ := by
  intro bufs
  induction bufs with
  | nil =>
    intro i fs written
    simp [writeLoop, pathsFrom, fsWriteAll]
  | cons b rest ih =>
    intro i fs written
    rw [writeLoop]
    simp only [Bool.not_true, Bool.false_and, Bool.false_eq_true, if_false]
    rw [ih]
    simp [pathsFrom, fsWriteAll, pathAt]

theorem utf8LenU_ascii : ∀ (u : Units), (∀ x ∈ u, x < 0x80) → utf8LenU u = u.length
  | [], _ => rfl
  | [c], h => by simp [utf8LenU, h c (by simp)]
  | c :: d :: rest, h => by
    have hc : c < 0x80 := h c (by simp)
    have ih := utf8LenU_ascii (d :: rest) (fun x hx => h x (by simp [hx]))
    simp [utf8LenU, hc, ih]
    omega

/-- C10.  When the final slice of the last file makes the current
buffer's size reach the bound exactly (here: a single ASCII file whose
formatted content is exactly B bytes), a new empty buffer is appended
after the slice and the run ends with it still empty; the write phase
then writes an additional chunk file with empty content and counts it in
the reported number of output files. -/
theorem claim10 (B f : Nat) (p c : Units) (out : String) (fs : FS)
    (hB : 0 < B) (hA : ∀ u ∈ c, u < 0x80) (hL : c.length = B) :
    ∃ st, assembleAll (f + 1) B [(p, c)] initState = some st ∧
      st.buffers = [c, []] ∧
      writePhase true out st.buffers fs =
        ⟨fsWriteAll fs [(getOutputFilePath out 1, utf8BytesU c),
            (getOutputFilePath out 2, [])],
          none,
          [(getOutputFilePath out 1, utf8BytesU c), (getOutputFilePath out 2, [])],
          some 2⟩ := by
  have hpos : 0 < c.length := by omega
  have hlen : utf8LenU c = B := by rw [utf8LenU_ascii c hA, hL]
  have hminB : min (B - 0) (c.length - 0) = B := by
    rw [hL]
    simp
  have htake : (c.drop 0).take B = c := by
    rw [List.drop_zero, ← hL, List.take_length]
  have hSL : sliceLenOf B c 0 0 = B := by
    have e1 : (if 0 < B then min (B - 0) (c.length - 0) else c.length - 0) = B := by
      rw [if_pos hB]
      omega
    simp only [sliceLenOf, e1, htake, hlen]
    rw [if_neg (show ¬ (0 < B ∧ B < 0 + B) by omega)]
  have hslice : sliceOf B c 0 0 = c := by
    rw [sliceOf, hSL, htake]
  have haug : augOf B c 0 initState = c := by
    unfold augOf
    have h1 : initState.isContinuingFile = false := rfl
    have h2 : initState.currentChunkSize = 0 := rfl
    rw [h1, h2, hSL, hslice]
    simp [show ¬ (B < c.length) from by omega]
  have hpush : 0 < B ∧ B ≤ initState.currentChunkSize + utf8LenU (augOf B c 0 initState) := by
    refine ⟨hB, ?_⟩
    rw [haug, hlen]
    have h2 : initState.currentChunkSize = 0 := rfl
    omega
  have hfst : (asmStep B p c 0 initState).1 = 0 + B := by
    rw [asmStep_fst]
    have h2 : initState.currentChunkSize = 0 := rfl
    rw [h2, hSL]
  have hrun : assembleAll (f + 1) B [(p, c)] initState =
      some (asmStep B p c 0 initState).2 := by
    have h1 : emitFile (f + 1) B p c initState = some (asmStep B p c 0 initState).2 := by
      unfold emitFile
      rw [fileLoop_succ B p c f 0 initState hpos, hfst]
      exact fileLoop_done B p c f (0 + B) _ (by omega)
    have hm : assembleAll (f + 1) B [(p, c)] initState =
        (match emitFile (f + 1) B p c initState with
          | none => none
          | some st1 => assembleAll (f + 1) B [] st1) := rfl
    rw [hm, h1]
    rfl
  have hbuf : (asmStep B p c 0 initState).2.buffers = [c, []] := by
    simp only [asmStep]
    split
    · simp only [haug]
      rfl
    · rename_i hno
      exact absurd hpush hno
  refine ⟨(asmStep B p c 0 initState).2, hrun, hbuf, ?_⟩
  rw [hbuf]
  show writeLoop true out 2 [c, []] 0 fs [] = _
  rw [writeLoop_overwrite]
  simp [pathsFrom, pathAt, fsWriteAll, utf8BytesU]

/-- C10 (witness): B = 3 and the ASCII file `abc`. -/
theorem claim10_witness :
    ∃ st, assembleAll 10 3 [(toUnits "f", toUnits "abc")] initState = some st ∧
      st.buffers = [toUnits "abc", []] ∧
      writePhase true "/x/out.md" st.buffers [] =
        ⟨fsWriteAll [] [(getOutputFilePath "/x/out.md" 1, utf8BytesU (toUnits "abc")),
            (getOutputFilePath "/x/out.md" 2, [])],
          none,
          [(getOutputFilePath "/x/out.md" 1, utf8BytesU (toUnits "abc")),
            (getOutputFilePath "/x/out.md" 2, [])],
          some 2⟩ :=
  claim10 3 9 (toUnits "f") (toUnits "abc") "/x/out.md" []
    (by decide) (by decide) (by decide)

theorem fsLookup_cons (e : String × List Nat) (rest : FS) (p : String) :
    fsLookup (e :: rest) p = if e.1 = p then some e.2 else fsLookup rest p := by
  unfold fsLookup
  by_cases h : e.1 = p
  · rw [List.find?_cons_of_pos _ (by simpa using h), if_pos h]
    rfl
  · rw [List.find?_cons_of_neg _ (by simpa using h), if_neg h]

theorem fsLookup_fsWrite (fs : FS) (p q : String) (v : List Nat) :
    fsLookup (fsWrite fs q v) p = if p = q then some v else fsLookup fs p := by
  induction fs with
  | nil =>
    show fsLookup [(q, v)] p = _
    rw [fsLookup_cons]
    by_cases h : p = q
    · rw [if_pos (by rw [h]), if_pos h]
    · rw [if_neg (fun hh => h hh.symm), if_neg h]
  | cons e rest ih =>
    show fsLookup (if e.1 == q then (q, v) :: rest else e :: fsWrite rest q v) p = _
    by_cases he : e.1 = q
    · rw [if_pos (by simpa using he), fsLookup_cons]
      by_cases h : p = q
      · rw [if_pos (by rw [h]), if_pos h]
      · rw [if_neg (fun hh => h hh.symm), if_neg h, fsLookup_cons,
          if_neg (by rw [he]; exact fun hh => h hh.symm)]
    · rw [if_neg (by simpa using he), fsLookup_cons, ih, fsLookup_cons]
      by_cases hp : e.1 = p <;> by_cases h : p = q
      · exact absurd (hp.trans h) he
      · rw [if_pos hp, if_neg h, if_pos hp]
      · rw [if_neg hp, if_pos h, if_pos h]
      · rw [if_neg hp, if_neg h, if_neg h, if_neg hp]

theorem fsLookup_fsWriteAll (l : List (String × List Nat)) :
    ∀ (fs : FS) (q : String), (∀ e ∈ l, e.1 ≠ q) →
      fsLookup (fsWriteAll fs l) q = fsLookup fs q := by
  induction l with
  | nil => intro fs q _; rfl
  | cons e rest ih =>
    intro fs q h
    show fsLookup (fsWriteAll (fsWrite fs e.1 e.2) rest) q = _
    rw [ih _ q (fun x hx => h x (by simp [hx])), fsLookup_fsWrite,
      if_neg (fun hh => h e (by simp) hh.symm)]

theorem fsLookup_fsWriteAll_mem (l : List (String × List Nat)) :
    ∀ fs : FS, (l.map Prod.fst).Nodup →
      ∀ e ∈ l, fsLookup (fsWriteAll fs l) e.1 = some e.2 := by
  induction l with
  | nil => simp
  | cons a rest ih =>
    intro fs hnd e he
    have hnd' : (rest.map Prod.fst).Nodup := by
      simp only [List.map_cons, List.nodup_cons] at hnd
      exact hnd.2
    rcases List.mem_cons.mp he with he | he
    · subst he
      show fsLookup (fsWriteAll (fsWrite fs e.1 e.2) rest) e.1 = some e.2
      rw [fsLookup_fsWriteAll rest _ e.1 ?_, fsLookup_fsWrite, if_pos rfl]
      intro x hx
      simp only [List.map_cons, List.nodup_cons] at hnd
      exact fun hh => hnd.1 (hh ▸ List.mem_map_of_mem Prod.fst hx)
    · exact ih (fsWrite fs a.1 a.2) hnd' e he

theorem pathsFrom_fst (out : String) (total : Nat) :
    ∀ (bufs : List Units) (i : Nat),
      (pathsFrom out total i bufs).map Prod.fst =
        (List.range bufs.length).map (fun m => pathAt out total (i + m)) := by
  intro bufs
  induction bufs with
  | nil => intro i; simp [pathsFrom]
  | cons b rest ih =>
    intro i
    rw [pathsFrom]
    simp only [List.map_cons, List.length_cons, List.range_succ_eq_map,
      List.map_map, ih (i + 1)]
    refine congrArg₂ List.cons (by rw [Nat.add_zero]) ?_
    apply List.map_congr_left
    intro m _
    show pathAt out total (i + 1 + m) = pathAt out total (i + (m + 1))
    rw [Nat.add_assoc, Nat.add_comm 1 m]

/-- Canonical description of an aborting write run (overwrite off): the
collision happens at the k-th derived path, only the first k buffers
were written (in order), the file system holds exactly those writes, the
colliding path exists there, and no count is reported. -/
theorem writeLoop_abort (out : String) (total : Nat) :
    ∀ (bufs : List Units) (i : Nat) (fs : FS)
      (written : List (String × List Nat)) (res : WriteResult) (p : String),
      writeLoop false out total bufs i fs written = res →
      res.collision = some p →
      ∃ k, k < bufs.length ∧
        p = pathAt out total (i + k) ∧
        res.written = written ++ (pathsFrom out total i bufs).take k ∧
        res.fs = fsWriteAll fs ((pathsFrom out total i bufs).take k) ∧
        (fsLookup res.fs p).isSome = true ∧
        res.reportedCount = none := by
  intro bufs
  induction bufs with
  | nil =>
    intro i fs written res p hres hcol
    rw [writeLoop] at hres
    subst hres
    simp at hcol
  | cons b rest ih =>
    intro i fs written res p hres hcol
    rw [writeLoop] at hres
    simp only [Bool.not_false, Bool.true_and] at hres
    have hpa : (if 1 < total then getOutputFilePath out (i + 1) else out) =
        pathAt out total i := rfl
    rw [hpa] at hres
    by_cases hex : (fsLookup fs (pathAt out total i)).isSome = true
    · rw [if_pos hex] at hres
      subst hres
      simp only [WriteResult.collision] at hcol
      cases hcol
      refine ⟨0, by simp, by rw [Nat.add_zero], by simp, by simp [fsWriteAll], hex, rfl⟩
    · rw [if_neg hex] at hres
      obtain ⟨k, hk, hp, hw, hfs, hsome, hcount⟩ := ih (i + 1)
        (fsWrite fs (pathAt out total i) (utf8BytesU b))
        (written ++ [(pathAt out total i, utf8BytesU b)]) res p hres hcol
      refine ⟨k + 1, by simp; omega, ?_, ?_, ?_, hsome, hcount⟩
      · rw [hp]
        have : i + 1 + k = i + (k + 1) := by omega
        rw [this]
      · rw [hw, pathsFrom, List.take_succ_cons, List.append_assoc]
        rfl
      · rw [hfs, pathsFrom, List.take_succ_cons]
        rfl

/-- C9.  When a derived target path already exists and overwrite is off,
the write phase aborts at that path: the collision is reported with the
offending path, nothing is written to it (its content stays exactly what
it was before the run), no success count is reported, and the chunk
files written before the collision are all in place (provided the
derived chunk paths are pairwise distinct). -/
theorem claim9 (out : String) (bufs : List Units) (fs : FS) (p : String)
    (hN : ((pathsFrom out bufs.length 0 bufs).map Prod.fst).Nodup)
    (hC : (writePhase false out bufs fs).collision = some p) :
    (fsLookup fs p).isSome = true ∧
    fsLookup (writePhase false out bufs fs).fs p = fsLookup fs p ∧
    (writePhase false out bufs fs).reportedCount = none ∧
    ∀ e ∈ (writePhase false out bufs fs).written,
      fsLookup (writePhase false out bufs fs).fs e.1 = some e.2 := by
  obtain ⟨k, hk, hp, hw, hfs, hsome, hcount⟩ :=
    writeLoop_abort out bufs.length bufs 0 fs [] (writePhase false out bufs fs) p
      rfl hC
  have hfst := pathsFrom_fst out bufs.length bufs 0
  -- distinct indices yield distinct paths
  have hdistinct : ∀ m, m < k → pathAt out bufs.length m ≠ p := by
    intro m hm heq
    have hpw : List.Pairwise (fun a b => a ≠ b)
        ((pathsFrom out bufs.length 0 bufs).map Prod.fst) := hN
    rw [hfst] at hpw
    rw [List.pairwise_map] at hpw
    rw [List.pairwise_iff_getElem] at hpw
    have := hpw m k (by simpa using lt_trans hm hk) (by simpa using hk)
      (by simpa using hm)
    simp only [List.getElem_range] at this
    apply this
    rw [Nat.zero_add, Nat.zero_add, heq, hp, Nat.zero_add]
  have hnotin : ∀ e ∈ (pathsFrom out bufs.length 0 bufs).take k, e.1 ≠ p := by
    intro e he
    have hmem : e.1 ∈ ((pathsFrom out bufs.length 0 bufs).take k).map Prod.fst :=
      List.mem_map_of_mem Prod.fst he
    rw [List.map_take, hfst, ← List.map_take, List.take_range] at hmem
    obtain ⟨m, hm, hme⟩ := List.mem_map.mp hmem
    rw [List.mem_range] at hm
    have hmk : m < k := lt_of_lt_of_le hm (min_le_left _ _)
    rw [← hme, Nat.zero_add]
    exact hdistinct m hmk
  have htrans : fsLookup (writePhase false out bufs fs).fs p = fsLookup fs p := by
    rw [hfs]
    exact fsLookup_fsWriteAll _ fs p hnotin
  refine ⟨?_, htrans, hcount, ?_⟩
  · rw [htrans] at hsome
    exact hsome
  · intro e he
    rw [hw] at he
    simp only [List.nil_append] at he
    rw [hfs]
    apply fsLookup_fsWriteAll_mem
    · rw [List.map_take]
      exact (List.take_sublist _ _).nodup hN
    · exact he

/-- C9 (witness): two buffers, the second derived path already exists. -/
theorem claim9_witness :
    (fsLookup [("/x/out.02.md", [99])] "/x/out.02.md").isSome = true ∧
    fsLookup (writePhase false "/x/out.md" [toUnits "A", toUnits "B"]
        [("/x/out.02.md", [99])]).fs "/x/out.02.md" =
      fsLookup [("/x/out.02.md", [99])] "/x/out.02.md" ∧
    (writePhase false "/x/out.md" [toUnits "A", toUnits "B"]
        [("/x/out.02.md", [99])]).reportedCount = none ∧
    ∀ e ∈ (writePhase false "/x/out.md" [toUnits "A", toUnits "B"]
        [("/x/out.02.md", [99])]).written,
      fsLookup (writePhase false "/x/out.md" [toUnits "A", toUnits "B"]
        [("/x/out.02.md", [99])]).fs e.1 = some e.2 :=
  claim9 "/x/out.md" [toUnits "A", toUnits "B"] [("/x/out.02.md", [99])]
    "/x/out.02.md" (by decide) (by decide)

/-! ## Claim C2: per-buffer byte bound -/

/-- Splitting the UTF-8 length over an append whose right part does not
start with a low surrogate (no pair can form across the boundary). -/
theorem utf8LenU_append_right : ∀ (a b : Units),
    (∀ x, b.head? = some x → isLowSur x = false) →
    utf8LenU (a ++ b) = utf8LenU a + utf8LenU b
  | [], b, _ => by simp [utf8LenU]
  | [c], b, h => by
    cases b with
    | nil => simp [utf8LenU]
    | cons d rest =>
      have hd : isLowSur d = false := h d rfl
      show utf8LenU (c :: d :: rest) = utf8LenU [c] + utf8LenU (d :: rest)
      simp only [utf8LenU, hd, Bool.and_false]
      split_ifs with h1 h2 h3 <;> first | omega | exact absurd h3 (by decide)
  | c :: c2 :: rest, b, h => by
    have ih1 := utf8LenU_append_right (c2 :: rest) b h
    have ih2 := utf8LenU_append_right rest b h
    simp only [List.cons_append] at ih1 ⊢
    simp only [utf8LenU]
    split_ifs <;> omega

/-- Splitting the UTF-8 length over an append whose left part does not
end with a high surrogate. -/
theorem utf8LenU_append_left : ∀ (a b : Units),
    (∀ x, a.getLast? = some x → isHighSur x = false) →
    utf8LenU (a ++ b) = utf8LenU a + utf8LenU b
  | [], b, _ => by simp [utf8LenU]
  | [c], b, h => by
    have hc : isHighSur c = false := h c rfl
    cases b with
    | nil => simp [utf8LenU]
    | cons d rest =>
      show utf8LenU (c :: d :: rest) = utf8LenU [c] + utf8LenU (d :: rest)
      simp only [utf8LenU, hc, Bool.false_and]
      split_ifs with h1 h2 h3 <;> first | omega | exact absurd h3 (by decide)
  | c :: c2 :: rest, b, h => by
    have h' : ∀ x, (c2 :: rest).getLast? = some x → isHighSur x = false := by
      intro x hx
      apply h
      rwa [List.getLast?_cons_cons]
    have h'' : ∀ x, rest.getLast? = some x → isHighSur x = false := by
      intro x hx
      cases rest with
      | nil => cases hx
      | cons r rs =>
        apply h
        rwa [List.getLast?_cons_cons, List.getLast?_cons_cons]
    have ih1 := utf8LenU_append_left (c2 :: rest) b h'
    have ih2 := utf8LenU_append_left rest b h''
    simp only [List.cons_append] at ih1 ⊢
    simp only [utf8LenU]
    split_ifs <;> omega

theorem contFooter_head_not_low : ∀ x, contFooter.head? = some x → isLowSur x = false := by
  intro x hx
  have h10 : contFooter.head? = some 10 := by decide
  rw [h10] at hx
  cases hx
  decide

theorem contHeader_getLast_not_high (nm : Units) :
    ∀ x, (contHeader nm).getLast? = some x → isHighSur x = false := by
  intro x hx
  have h10 : (contHeader nm).getLast? = some 10 := by
    unfold contHeader
    rw [List.getLast?_append]
    have h2 : (toUnits "\n\n").getLast? = some 10 := by decide
    rw [h2]
    rfl
  rw [h10] at hx
  cases hx
  decide

/-- The slice is never longer (in bytes) than the augmented slice that
carries it. -/
theorem utf8LenU_augOf_ge (maxCS : Nat) (c : Units) (ptr : Nat) (st : AsmState) :
    utf8LenU (sliceOf maxCS c ptr st.currentChunkSize) ≤ utf8LenU (augOf maxCS c ptr st) := by
  have hW : utf8LenU (sliceOf maxCS c ptr st.currentChunkSize) ≤
      utf8LenU (if st.isContinuingFile then
        contHeader st.currentFileName ++ sliceOf maxCS c ptr st.currentChunkSize
      else sliceOf maxCS c ptr st.currentChunkSize) := by
    by_cases h : st.isContinuingFile = true
    · rw [if_pos h, utf8LenU_append_left _ _ (contHeader_getLast_not_high st.currentFileName)]
      omega
    · exact le_of_eq (by rw [if_neg h])
  unfold augOf
  by_cases h2 : ptr + sliceLenOf maxCS c ptr st.currentChunkSize < c.length
  · rw [if_pos h2, utf8LenU_append_right _ _ contFooter_head_not_low]
    omega
  · rw [if_neg h2, List.append_nil]
    exact hW

/-- The shrink loop's result always fits the remaining space. -/
theorem shrinkLen_fits (c : Units) (ptr sp : Nat) :
    ∀ l, utf8LenU ((c.drop ptr).take (shrinkLen c ptr sp l)) ≤ sp
  | 0 => by simp [shrinkLen, utf8LenU]
  | l + 1 => by
    rw [shrinkLen]
    split
    · exact shrinkLen_fits c ptr sp l
    · rename_i h
      omega

/-- `sliceLenOf` with its local bindings expanded. -/
theorem sliceLenOf_eq (B : Nat) (c : Units) (ptr size : Nat) :
    sliceLenOf B c ptr size =
      if 0 < B ∧ B < size + utf8LenU ((c.drop ptr).take
          (if 0 < B then min (B - size) (c.length - ptr) else c.length - ptr)) then
        shrinkLen c ptr (B - size)
          (if 0 < B then min (B - size) (c.length - ptr) else c.length - ptr)
      else
        if 0 < B then min (B - size) (c.length - ptr) else c.length - ptr := rfl

/-- The chosen slice always fits the remaining chunk space. -/
theorem sliceOf_fits (B : Nat) (c : Units) (ptr size : Nat) (hB : 0 < B) :
    utf8LenU (sliceOf B c ptr size) ≤ B - size := by
  unfold sliceOf
  rw [sliceLenOf_eq, if_pos hB]
  split
  · exact shrinkLen_fits c ptr (B - size) _
  · rename_i h
    omega

theorem bumpLast_dropLast (l : List Nat) (k : Nat) :
    (bumpLast l k).dropLast = l.dropLast := by
  induction l with
  | nil => rfl
  | cons a t ih =>
    cases t with
    | nil => rfl
    | cons b t2 =>
      show (a :: bumpLast (b :: t2) k).dropLast = (a :: b :: t2).dropLast
      have hne : bumpLast (b :: t2) k ≠ [] := by
        cases t2 <;> simp [bumpLast]
      rw [List.dropLast_cons_of_ne_nil hne, List.dropLast_cons_of_ne_nil (by simp), ih]

theorem bumpLast_getLastD (k : Nat) :
    ∀ (l : List Nat), l ≠ [] → ∀ d, (bumpLast l k).getLastD d = l.getLastD d + k
  | [], h, _ => absurd rfl h
  | [x], _, d => by simp [bumpLast, List.getLastD_cons]
  | x :: y :: ys, _, d => by
    show (x :: bumpLast (y :: ys) k).getLastD d = _
    rw [List.getLastD_cons, List.getLastD_cons]
    exact bumpLast_getLastD k (y :: ys) (by simp) x

theorem bumpLast_sum (k : Nat) :
    ∀ (l : List Nat), (bumpLast l k).sum = l.sum + k
  | [] => by simp [bumpLast]
  | [x] => by simp [bumpLast]
  | x :: y :: ys => by
    show (x :: bumpLast (y :: ys) k).sum = _
    rw [List.sum_cons, List.sum_cons, bumpLast_sum k (y :: ys)]
    omega

theorem bumpLast_entries (k : Nat) :
    ∀ (l : List Nat), ∀ x ∈ bumpLast l k, x ∈ l.dropLast ∨ x = l.getLastD 0 + k
  | [], x, hx => by
    simp [bumpLast] at hx
    simp [hx]
  | [a], x, hx => by
    simp [bumpLast] at hx
    simp [hx, List.getLastD_cons]
  | a :: b :: bs, x, hx => by
    rcases List.mem_cons.mp hx with hx | hx
    · left
      rw [List.dropLast_cons_of_ne_nil (by simp), hx]
      simp
    · rcases bumpLast_entries k (b :: bs) x hx with h | h
      · left
        rw [List.dropLast_cons_of_ne_nil (by simp)]
        exact List.mem_cons_of_mem a h
      · right
        rw [List.getLastD_cons]
        rw [List.getLastD_cons] at h ⊢
        exact h

theorem mem_dropLast_or_getLastD :
    ∀ (l : List Nat), ∀ x ∈ l, x ∈ l.dropLast ∨ x = l.getLastD 0
  | [], x, hx => by simp at hx
  | [a], x, hx => by
    simp at hx
    simp [hx, List.getLastD_cons]
  | a :: b :: bs, x, hx => by
    rcases List.mem_cons.mp hx with hx | hx
    · left
      rw [List.dropLast_cons_of_ne_nil (by simp), hx]
      simp
    · rcases mem_dropLast_or_getLastD (b :: bs) x hx with h | h
      · left
        rw [List.dropLast_cons_of_ne_nil (by simp)]
        exact List.mem_cons_of_mem a h
      · right
        rwa [List.getLastD_cons]

/-- Invariant for the byte bound: every sealed buffer received at most B
raw slice bytes, the open buffer's raw tally is below the running size,
and the running size never exceeds B at an iteration boundary. -/
def RawInv (B : Nat) (st : AsmState) : Prop :=
  (∀ x ∈ st.rawPerBuffer.dropLast, x ≤ B) ∧
  st.rawPerBuffer.getLastD 0 ≤ st.currentChunkSize ∧
  st.currentChunkSize ≤ B

/-- The step's effect on the tally and running size, by cases on whether
the bound was reached and a fresh buffer was pushed. -/
theorem asmStep_out (B : Nat) (p c : Units) (ptr : Nat) (st : AsmState) :
    ((asmStep B p c ptr st).2.rawPerBuffer =
        bumpLast st.rawPerBuffer (utf8LenU (sliceOf B c ptr st.currentChunkSize)) ++ [0] ∧
      (asmStep B p c ptr st).2.currentChunkSize = 0) ∨
    ((asmStep B p c ptr st).2.rawPerBuffer =
        bumpLast st.rawPerBuffer (utf8LenU (sliceOf B c ptr st.currentChunkSize)) ∧
      (asmStep B p c ptr st).2.currentChunkSize =
        st.currentChunkSize + utf8LenU (augOf B c ptr st) ∧
      (st.currentChunkSize + utf8LenU (augOf B c ptr st) < B ∨ ¬0 < B)) := by
  simp only [asmStep]
  split
  · left
    exact ⟨rfl, rfl⟩
  · right
    rename_i hpush
    refine ⟨rfl, rfl, ?_⟩
    by_cases hB : 0 < B
    · left
      rcases Nat.lt_or_ge (st.currentChunkSize + utf8LenU (augOf B c ptr st)) B with h | h
      · exact h
      · exact absurd ⟨hB, h⟩ hpush
    · right
      exact hB

theorem asmStep_rawInv (B : Nat) (p c : Units) (ptr : Nat) (st : AsmState)
    (hB : 0 < B) (hG : GoodState st) (hInv : RawInv B st) :
    RawInv B (asmStep B p c ptr st).2 ∧
    (asmStep B p c ptr st).2.rawPerBuffer.sum =
      st.rawPerBuffer.sum + utf8LenU (sliceOf B c ptr st.currentChunkSize) := by
  obtain ⟨hdrop, hlast, hsize⟩ := hInv
  have hne : st.rawPerBuffer ≠ [] := by
    obtain ⟨h1, h2⟩ := hG
    intro h
    rw [h] at h2
    simp at h2
    omega
  have hfits := sliceOf_fits B c ptr st.currentChunkSize hB
  have haugge := utf8LenU_augOf_ge B c ptr st
  have hbl := bumpLast_getLastD (utf8LenU (sliceOf B c ptr st.currentChunkSize))
    st.rawPerBuffer hne 0
  have hbd := bumpLast_dropLast st.rawPerBuffer (utf8LenU (sliceOf B c ptr st.currentChunkSize))
  have hbs := bumpLast_sum (utf8LenU (sliceOf B c ptr st.currentChunkSize)) st.rawPerBuffer
  have hbe := bumpLast_entries (utf8LenU (sliceOf B c ptr st.currentChunkSize)) st.rawPerBuffer
  rcases asmStep_out B p c ptr st with ⟨hr, hs⟩ | ⟨hr, hs, hlt⟩
  · refine ⟨⟨?_, ?_, ?_⟩, ?_⟩
    · intro x hx
      rw [hr, List.dropLast_concat] at hx
      rcases hbe x hx with h | h
      · exact hdrop x h
      · rw [h]
        omega
    · simp only [hr, hs, List.getLastD_concat, le_refl]
    · rw [hs]
      omega
    · rw [hr, List.sum_append, hbs]
      simp
  · rcases hlt with hlt | hlt
    · refine ⟨⟨?_, ?_, ?_⟩, ?_⟩
      · intro x hx
        rw [hr, hbd] at hx
        exact hdrop x hx
      · rw [hr, hs, hbl]
        omega
      · rw [hs]
        omega
      · rw [hr]
        exact hbs
    · exact absurd hB hlt

/-- The byte-bound invariant through a whole file emission. -/
theorem fileLoop_rawInv (B : Nat) (p c : Units) (hB : 0 < B) :
    ∀ (fuel ptr : Nat) (st st' : AsmState), GoodState st → RawInv B st →
      st.rawPerBuffer.sum = (st.rawSlices.map utf8LenU).sum →
      fileLoop B p c fuel ptr st = some st' →
      RawInv B st' ∧ st'.rawPerBuffer.sum = (st'.rawSlices.map utf8LenU).sum := by
  intro fuel
  induction fuel with
  | zero =>
    intro ptr st st' hG hInv hSum hrun
    rw [fileLoop] at hrun
    by_cases h : ptr < c.length
    · simp [h] at hrun
    · simp only [h, if_false] at hrun
      cases hrun
      exact ⟨hInv, hSum⟩
  | succ f ih =>
    intro ptr st st' hG hInv hSum hrun
    rw [fileLoop] at hrun
    by_cases h : ptr < c.length
    · simp only [h, if_true] at hrun
      obtain ⟨hInv', hSum'⟩ := asmStep_rawInv B p c ptr st hB hG hInv
      refine ih _ _ _ (asmStep_goodState B p c ptr st hG) hInv' ?_ hrun
      rw [hSum', asmStep_rawSlices, hSum]
      simp
    · simp only [h, if_false] at hrun
      cases hrun
      exact ⟨hInv, hSum⟩

/-- The byte-bound invariant through a whole run. -/
theorem assembleAll_rawInv (fuel B : Nat) (hB : 0 < B) :
    ∀ (files : List (Units × Units)) (st st' : AsmState), GoodState st → RawInv B st →
      st.rawPerBuffer.sum = (st.rawSlices.map utf8LenU).sum →
      assembleAll fuel B files st = some st' →
      RawInv B st' ∧ st'.rawPerBuffer.sum = (st'.rawSlices.map utf8LenU).sum := by
  intro files
  induction files with
  | nil =>
    intro st st' hG hInv hSum hrun
    simp only [assembleAll] at hrun
    cases hrun
    exact ⟨hInv, hSum⟩
  | cons fc rest ih =>
    obtain ⟨fp, fcont⟩ := fc
    intro st st' hG hInv hSum hrun
    rw [assembleAll] at hrun
    cases hblk : emitFile fuel B fp fcont st with
    | none => rw [hblk] at hrun; cases hrun
    | some st1 =>
      rw [hblk] at hrun
      obtain ⟨hInv1, hSum1⟩ := fileLoop_rawInv B fp fcont hB fuel 0 st st1 hG hInv hSum hblk
      exact ih st1 st' (fileLoop_spec B fp fcont fuel 0 st st1 hG hblk).1 hInv1 hSum1 hrun

/-- C2 (counterexample).  The claim says no buffer exceeds B except for
an unsplittable single code point; in particular never because a marker
was attached.  With B = 10 and a 20-byte ASCII file, the first slice
fits B exactly (10 raw bytes) but the continuation footer is appended
after the fit, so the first buffer holds 41 bytes > 10. -/
theorem claim2_counterexample :
    (assembleAll 10 10 [(toUnits "f", toUnits "aaaaaaaaaaaaaaaaaaaa")] initState).map
        (fun st => (utf8LenU (st.buffers.getD 0 []), st.rawPerBuffer.getD 0 0)) =
      some (41, 10) ∧ 10 < 41 := by
  constructor
  · decide
  · decide

/-- C2 (amended).  Counting only raw slice bytes — excluding the
inserted continuation headers and footers — every buffer stays within
the bound B: every entry of the per-buffer tally is at most B, the tally
covers exactly the bytes of the raw slices, and there is one tally entry
per buffer. -/
theorem claim2_amended (fuel B : Nat) (files : List (Units × Units)) (st : AsmState)
    (hB : 0 < B)
    (hrun : assembleAll fuel B files initState = some st) :
    (∀ x ∈ st.rawPerBuffer, x ≤ B) ∧
    st.rawPerBuffer.sum = (st.rawSlices.map utf8LenU).sum ∧
    st.rawPerBuffer.length = st.buffers.length := by
  obtain ⟨hInv, hSum⟩ := assembleAll_rawInv fuel B hB files initState st goodState_init
    ⟨by simp [initState], by simp [initState], by simp [initState]⟩
    (by simp [initState]) hrun
  obtain ⟨hG, _⟩ := assembleAll_spec fuel B files initState st goodState_init hrun
  refine ⟨?_, hSum, hG.2⟩
  intro x hx
  rcases mem_dropLast_or_getLastD st.rawPerBuffer x hx with h | h
  · exact hInv.1 x h
  · rw [h]
    exact le_trans hInv.2.1 hInv.2.2

/-- C2 (witness): the amended claim at the concrete bound-5 run. -/
theorem claim2_witness :
    (∀ x ∈ sampleRun1.rawPerBuffer, x ≤ 5) ∧
    sampleRun1.rawPerBuffer.sum = (sampleRun1.rawSlices.map utf8LenU).sum ∧
    sampleRun1.rawPerBuffer.length = sampleRun1.buffers.length :=
  claim2_amended 10 5 [(toUnits "f", toUnits "ab")] sampleRun1 (by decide) (by decide)

/-! ## Claim C3: slice boundaries and character boundaries -/

/-- Every UTF-16 code unit contributes at least one UTF-8 byte. -/
theorem utf8LenU_ge_length : ∀ u : Units, u.length ≤ utf8LenU u
  | [] => by simp [utf8LenU]
  | [c] => by
    simp only [utf8LenU, List.length_cons, List.length_nil]
    split_ifs <;> omega
  | c :: d :: rest => by
    have ih1 := utf8LenU_ge_length (d :: rest)
    have ih2 := utf8LenU_ge_length rest
    simp only [List.length_cons] at ih1 ih2 ⊢
    simp only [utf8LenU]
    split_ifs <;> omega

/-- The shrink loop is maximal: any longer prefix length (within the
starting length) overflows the remaining space. -/
theorem shrinkLen_max (c : Units) (ptr sp : Nat) :
    ∀ l m, shrinkLen c ptr sp l < m → m ≤ l →
      sp < utf8LenU ((c.drop ptr).take m)
  | 0, m, h1, h2 => by
    rw [shrinkLen] at h1
    omega
  | l + 1, m, h1, h2 => by
    rw [shrinkLen] at h1
    split at h1
    · rename_i hsp
      rcases Nat.lt_or_ge m (l + 1) with hm | hm
      · exact shrinkLen_max c ptr sp l m h1 (by omega)
      · have hme : m = l + 1 := by omega
        rw [hme]
        exact hsp
    · omega

/-- A code-unit sequence with no surrogate at all (every character in
the Basic Multilingual Plane below the surrogate range, so one unit per
character). -/
def noSur (u : Units) : Bool := u.all fun c => !(isHighSur c || isLowSur c)

theorem noSur_wellFormed : ∀ u : Units, noSur u = true → wellFormedU u = true
  | [] => fun _ => rfl
  | c :: rest => by
    intro h
    rw [noSur, List.all_cons, Bool.and_eq_true] at h
    obtain ⟨hc, hrest⟩ := h
    rw [Bool.not_eq_true', Bool.or_eq_false_iff] at hc
    have hres := noSur_wellFormed rest hrest
    cases rest with
    | nil =>
      show (if isHighSur c then false else if isLowSur c then false else true) = true
      rw [if_neg (by simp [hc.1]), if_neg (by simp [hc.2])]
    | cons d rest2 =>
      show (if isHighSur c then isLowSur d && wellFormedU rest2
        else if isLowSur c then false else wellFormedU (d :: rest2)) = true
      rw [if_neg (by simp [hc.1]), if_neg (by simp [hc.2])]
      exact hres

theorem noSur_of_mem_join (l : List Units) (h : noSur (joinU l) = true) :
    ∀ u ∈ l, noSur u = true := by
  intro u hu
  rw [noSur, List.all_eq_true]
  intro x hx
  rw [noSur, List.all_eq_true] at h
  exact h x (by rw [joinU]; exact List.mem_flatten.mpr ⟨u, hu, hx⟩)

/-- C3 (counterexample).  The claim says a multi-byte character is never
split, including characters outside the BMP.  With B = 4 and the content
`a😀` (well formed, the emoji being a surrogate pair), the assembler
splits the pair: both produced raw slices are ill-formed UTF-16, so a
slice boundary falls inside a character. -/
theorem claim3_counterexample :
    wellFormedU (toUnits "a😀") = true ∧
    (assembleAll 10 4 [(toUnits "f", toUnits "a😀")] initState).map
        (fun st => st.rawSlices.map wellFormedU) = some [false, false] := by
  constructor
  · decide
  · decide

/-- C3 (amended).  The slice taken at each step is the largest prefix of
the remaining content whose UTF-8 byte length fits the remaining chunk
space: it fits, and every prefix length that fits is at most the chosen
length.  Slice boundaries fall on character boundaries only for content
without surrogates (characters in the BMP): then every raw slice of a
run is well-formed UTF-16. -/
theorem claim3_amended (fuel B : Nat) (files : List (Units × Units)) (st : AsmState)
    (hB : 0 < B)
    (hrun : assembleAll fuel B files initState = some st)
    (hns : ∀ f ∈ files, noSur f.2 = true) :
    (∀ u ∈ st.rawSlices, wellFormedU u = true) ∧
    ∀ (c : Units) (ptr size : Nat),
      utf8LenU (sliceOf B c ptr size) ≤ B - size ∧
      ∀ m ≤ c.length - ptr, utf8LenU ((c.drop ptr).take m) ≤ B - size →
        m ≤ sliceLenOf B c ptr size := by
  constructor
  · obtain ⟨_, raws, augs, hraws, -, -, hjoin, -⟩ :=
      assembleAll_spec fuel B files initState st goodState_init hrun
    have hjoin2 : noSur (joinU raws) = true := by
      rw [hjoin]
      rw [noSur, List.all_eq_true]
      intro x hx
      rw [joinU] at hx
      obtain ⟨u, hu, hxu⟩ := List.mem_flatten.mp hx
      obtain ⟨f, hf, hfu⟩ := List.mem_map.mp hu
      have := hns f hf
      rw [noSur, List.all_eq_true] at this
      exact this x (by rw [hfu]; exact hxu)
    intro u hu
    rw [hraws] at hu
    simp only [initState, List.nil_append] at hu
    exact noSur_wellFormed u (noSur_of_mem_join raws hjoin2 u hu)
  · intro c ptr size
    refine ⟨sliceOf_fits B c ptr size hB, ?_⟩
    intro m hm hfit
    by_contra hgt
    push_neg at hgt
    have hlen : ((c.drop ptr).take m).length = m := by
      rw [List.length_take, List.length_drop]
      omega
    have hbytes : m ≤ utf8LenU ((c.drop ptr).take m) := by
      have := utf8LenU_ge_length ((c.drop ptr).take m)
      omega
    have hm0 : m ≤ min (B - size) (c.length - ptr) := le_min (by omega) hm
    rw [sliceLenOf_eq, if_pos hB] at hgt
    split at hgt
    · have := shrinkLen_max c ptr (B - size) (min (B - size) (c.length - ptr)) m hgt hm0
      omega
    · omega

/-- C3 (witness): the amended claim at a concrete surrogate-free run. -/
theorem claim3_witness :
    (∀ u ∈ sampleRun1.rawSlices, wellFormedU u = true) ∧
    ∀ (c : Units) (ptr size : Nat),
      utf8LenU (sliceOf 5 c ptr size) ≤ 5 - size ∧
      ∀ m ≤ c.length - ptr, utf8LenU ((c.drop ptr).take m) ≤ 5 - size →
        m ≤ sliceLenOf 5 c ptr size :=
  claim3_amended 10 5 [(toUnits "f", toUnits "ab")] sampleRun1
    (by decide) (by decide) (by decide)

/-! ## Claim C6: tree determinism and ordering -/

theorem charsCmp_eq_iff : ∀ x y : List Char, charsCmp x y = .eq ↔ x = y
  | [], [] => by simp [charsCmp]
  | [], _ :: _ => by simp [charsCmp]
  | _ :: _, [] => by simp [charsCmp]
  | a :: as, b :: bs => by
    rw [charsCmp]
    split_ifs with h1 h2
    · constructor
      · intro h
        exact absurd h (by decide)
      · intro h
        injection h with he _
        subst he
        exact absurd h1 (by omega)
    · constructor
      · intro h
        exact absurd h (by decide)
      · intro h
        injection h with he _
        subst he
        exact absurd h2 (by omega)
    · have hn : a.toNat = b.toNat := by omega
      have hab : a = b := Char.ext (UInt32.toNat.inj hn)
      subst hab
      rw [charsCmp_eq_iff as bs]
      simp

theorem charsCmp_swap : ∀ x y : List Char, charsCmp y x = (charsCmp x y).swap
  | [], [] => rfl
  | [], _ :: _ => rfl
  | _ :: _, [] => rfl
  | a :: as, b :: bs => by
    show (if b.toNat < a.toNat then Ordering.lt
        else if a.toNat < b.toNat then Ordering.gt else charsCmp bs as) =
      (if a.toNat < b.toNat then Ordering.lt
        else if b.toNat < a.toNat then Ordering.gt else charsCmp as bs).swap
    by_cases h1 : a.toNat < b.toNat
    · rw [if_neg (by omega), if_pos h1, if_pos h1]
      rfl
    · by_cases h2 : b.toNat < a.toNat
      · rw [if_pos h2, if_neg h1, if_pos h2]
        rfl
      · rw [if_neg h2, if_neg h1, if_neg h1, if_neg h2]
        exact charsCmp_swap as bs

theorem charsCmp_le_trans : ∀ x y z : List Char,
    charsCmp x y ≠ .gt → charsCmp y z ≠ .gt → charsCmp x z ≠ .gt
  | [], _, [], _, _ => by simp [charsCmp]
  | [], _, _ :: _, _, _ => by simp [charsCmp]
  | _ :: _, [], [], h1, _ => absurd rfl h1
  | _ :: _, _ :: _, [], _, h2 => absurd rfl h2
  | _ :: _, [], _ :: _, h1, _ => absurd rfl h1
  | a :: as, b :: bs, c :: cs, h1, h2 => by
    have g1 : (if a.toNat < b.toNat then Ordering.lt
        else if b.toNat < a.toNat then Ordering.gt else charsCmp as bs) ≠ .gt := h1
    have g2 : (if b.toNat < c.toNat then Ordering.lt
        else if c.toNat < b.toNat then Ordering.gt else charsCmp bs cs) ≠ .gt := h2
    show (if a.toNat < c.toNat then Ordering.lt
        else if c.toNat < a.toNat then Ordering.gt else charsCmp as cs) ≠ .gt
    by_cases hba : b.toNat < a.toNat
    · rw [if_neg (by omega), if_pos hba] at g1
      exact absurd rfl g1
    · by_cases hcb : c.toNat < b.toNat
      · rw [if_neg (by omega), if_pos hcb] at g2
        exact absurd rfl g2
      · by_cases hac : a.toNat < c.toNat
        · rw [if_pos hac]
          decide
        · rw [if_neg hac, if_neg (by omega)]
          rw [if_neg (show ¬a.toNat < b.toNat by omega), if_neg hba] at g1
          rw [if_neg (show ¬b.toNat < c.toNat by omega), if_neg hcb] at g2
          exact charsCmp_le_trans as bs cs g1 g2

theorem nodeLe_iff (a b : TreeNode) : nodeLe a b = true ↔
    (a.isFile = false ∧ b.isFile = true) ∨
    (a.isFile = b.isFile ∧ charsCmp a.name.data b.name.data ≠ .gt) := by
  cases hf1 : a.isFile <;> cases hf2 : b.isFile <;>
    cases hc : charsCmp a.name.data b.name.data <;>
      simp [nodeLe, nodeCmp, hf1, hf2, hc]

theorem nodeLe_total (a b : TreeNode) : nodeLe a b = true ∨ nodeLe b a = true := by
  rw [nodeLe_iff, nodeLe_iff]
  cases hf1 : a.isFile <;> cases hf2 : b.isFile <;>
    cases hc : charsCmp a.name.data b.name.data <;>
      simp [charsCmp_swap a.name.data b.name.data, hc, Ordering.swap]

theorem nodeLe_trans (a b c : TreeNode) (h1 : nodeLe a b = true)
    (h2 : nodeLe b c = true) : nodeLe a c = true := by
  rw [nodeLe_iff] at h1 h2 ⊢
  rcases h1 with ⟨ha, hb⟩ | ⟨hk1, hc1⟩ <;> rcases h2 with ⟨hb', hc'⟩ | ⟨hk2, hc2⟩
  · rw [hb] at hb'
    exact absurd hb' (by decide)
  · exact Or.inl ⟨ha, hk2 ▸ hb⟩
  · exact Or.inl ⟨hk1.trans hb', hc'⟩
  · exact Or.inr ⟨hk1.trans hk2, charsCmp_le_trans _ _ _ hc1 hc2⟩

theorem nodeLe_antisymm (a b : TreeNode) (h1 : nodeLe a b = true)
    (h2 : nodeLe b a = true) : a.name = b.name ∧ a.isFile = b.isFile := by
  rw [nodeLe_iff] at h1 h2
  rcases h1 with ⟨ha, hb⟩ | ⟨hk1, hc1⟩
  · rcases h2 with ⟨hb'', ha''⟩ | ⟨hk2, hc2⟩
    · rw [hb] at hb''
      exact absurd hb'' (by decide)
    · rw [ha, hb] at hk2
      exact absurd hk2 (by decide)
  · rcases h2 with ⟨hb'', ha''⟩ | ⟨hk2, hc2⟩
    · rw [ha'', hb''] at hk1
      exact absurd hk1 (by decide)
    · have hcc : charsCmp a.name.data b.name.data = .eq := by
        cases hc : charsCmp a.name.data b.name.data
        · exact absurd (by rw [charsCmp_swap a.name.data b.name.data, hc]; rfl) hc2
        · rfl
        · exact absurd hc hc1
      exact ⟨String.toList_inj.mp ((charsCmp_eq_iff _ _).mp hcc), hk1⟩

theorem insertSorted_perm (a : TreeNode) : ∀ l, (insertSorted a l).Perm (a :: l)
  | [] => List.Perm.refl _
  | b :: bs => by
    rw [insertSorted]
    split
    · exact List.Perm.refl _
    · exact ((insertSorted_perm a bs).cons b).trans (List.Perm.swap a b bs)

theorem sortC_perm : ∀ l, (sortC l).Perm l
  | [] => List.Perm.refl _
  | a :: as => (insertSorted_perm a (sortC as)).trans ((sortC_perm as).cons a)

theorem insertSorted_pairwise (a : TreeNode) :
    ∀ l, List.Pairwise (fun x y => nodeLe x y = true) l →
      List.Pairwise (fun x y => nodeLe x y = true) (insertSorted a l)
  | [], _ => by simp [insertSorted]
  | b :: bs, h => by
    rw [insertSorted]
    split
    · rename_i hab
      refine List.Pairwise.cons ?_ h
      intro x hx
      rcases List.mem_cons.mp hx with rfl | hx
      · exact hab
      · exact nodeLe_trans a b x hab (List.rel_of_pairwise_cons h hx)
    · rename_i hab
      have hba : nodeLe b a = true := (nodeLe_total a b).resolve_left hab
      obtain ⟨hb, hbs⟩ := List.pairwise_cons.mp h
      refine List.pairwise_cons.mpr ⟨?_, insertSorted_pairwise a bs hbs⟩
      intro x hx
      have hx' := (insertSorted_perm a bs).mem_iff.mp hx
      rcases List.mem_cons.mp hx' with rfl | hx'
      · exact hba
      · exact hb x hx'

theorem sortC_pairwise : ∀ l, List.Pairwise (fun x y => nodeLe x y = true) (sortC l)
  | [] => List.Pairwise.nil
  | a :: as => insertSorted_pairwise a (sortC as) (sortC_pairwise as)

/-- Two sorted sibling lists that are permutations of each other and
whose members are determined by name and kind are equal. -/
theorem pairwise_perm_eq :
    ∀ (l₁ l₂ : List TreeNode), l₁.Perm l₂ →
      List.Pairwise (fun x y => nodeLe x y = true) l₁ →
      List.Pairwise (fun x y => nodeLe x y = true) l₂ →
      (∀ x ∈ l₁, ∀ y ∈ l₁, x.name = y.name → x.isFile = y.isFile → x = y) →
      l₁ = l₂
  | [], l₂, h, _, _, _ => h.nil_eq
  | a :: t₁, [], h, _, _, _ => by
    have := h.eq_nil
    simp at this
  | a :: t₁, b :: t₂, h, hp₁, hp₂, hanti => by
    have hb1 : b ∈ a :: t₁ := h.symm.mem_iff.mp (List.mem_cons_self b t₂)
    have hab : a = b := by
      rcases List.mem_cons.mp (h.mem_iff.mp (List.mem_cons_self a t₁)) with hab | ha2
      · exact hab
      · rcases List.mem_cons.mp hb1 with hba | hb2
        · exact hba.symm
        · have r1 : nodeLe a b = true := List.rel_of_pairwise_cons hp₁ hb2
          have r2 : nodeLe b a = true := List.rel_of_pairwise_cons hp₂ ha2
          obtain ⟨hn, hf⟩ := nodeLe_antisymm a b r1 r2
          exact hanti a (List.mem_cons_self a t₁) b hb1 hn hf
    subst hab
    have ht : t₁ = t₂ :=
      pairwise_perm_eq t₁ t₂ h.cons_inv (List.pairwise_cons.mp hp₁).2
        (List.pairwise_cons.mp hp₂).2
        (fun x hx y hy => hanti x (List.mem_cons_of_mem a hx) y (List.mem_cons_of_mem a hy))
    rw [ht]

/-- Sibling names in order. -/
def names (l : List TreeNode) : List String := l.map TreeNode.name

/-- No duplicate in a list of names. -/
def dupFree : List String → Bool
  | [] => true
  | s :: ss => !(ss.any fun x => x == s) && dupFree ss

mutual

/-- Well-formed tree: sibling names are unique at every level. -/
def wfT : TreeNode → Bool
  | .mk _ c _ => dupFree (names c) && wfL c

/-- Every tree of the forest is well-formed. -/
def wfL : List TreeNode → Bool
  | [] => true
  | t :: ts => wfT t && wfL ts

end

theorem dupFree_iff : ∀ l : List String, dupFree l = true ↔ l.Nodup
  | [] => by simp [dupFree]
  | s :: ss => by
    rw [dupFree, Bool.and_eq_true, dupFree_iff ss, List.nodup_cons]
    have hx : (!(ss.any fun x => x == s)) = true ↔ s ∉ ss := by
      constructor
      · intro h hm
        have hany : ss.any (fun x => x == s) = true :=
          List.any_eq_true.mpr ⟨s, hm, by simp⟩
        rw [hany] at h
        exact absurd h (by decide)
      · intro h
        cases hb : ss.any fun x => x == s
        · rfl
        · obtain ⟨x, hxm, he⟩ := List.any_eq_true.mp hb
          rw [beq_iff_eq] at he
          subst he
          exact absurd hxm h
    rw [hx]

theorem hasChild_iff (c : List TreeNode) (part : String) :
    hasChild c part = true ↔ ∃ ch ∈ c, ch.name = part := by
  simp [hasChild, List.any_eq_true]

theorem canonL_eq_map : ∀ l, canonL l = l.map canon
  | [] => rfl
  | t :: ts => by rw [canonL, canonL_eq_map ts, List.map_cons]

theorem canon_name (t : TreeNode) : (canon t).name = t.name := by
  cases t with
  | mk n c f => rfl

theorem canon_isFile (t : TreeNode) : (canon t).isFile = t.isFile := by
  cases t with
  | mk n c f => rfl

theorem names_append (u v : List TreeNode) : names (u ++ v) = names u ++ names v :=
  List.map_append _ u v

theorem names_canonL (l : List TreeNode) : names (canonL l) = names l := by
  rw [canonL_eq_map, names, names, List.map_map]
  exact List.map_congr_left fun t _ => canon_name t

theorem wfT_mk (n : String) (c : List TreeNode) (f : Bool) :
    wfT (.mk n c f) = (dupFree (names c) && wfL c) := rfl

theorem wfL_cons (t : TreeNode) (ts : List TreeNode) :
    wfL (t :: ts) = (wfT t && wfL ts) := rfl

theorem wfL_iff : ∀ l : List TreeNode, wfL l = true ↔ ∀ t ∈ l, wfT t = true
  | [] => by simp [wfL]
  | t :: ts => by
    rw [wfL_cons, Bool.and_eq_true, wfL_iff ts]
    constructor
    · rintro ⟨h1, h2⟩ x hx
      rcases List.mem_cons.mp hx with rfl | hx
      · exact h1
      · exact h2 x hx
    · intro h
      exact ⟨h t (List.mem_cons_self t ts), fun x hx => h x (List.mem_cons_of_mem t hx)⟩

theorem wfL_append : ∀ u v : List TreeNode, wfL (u ++ v) = (wfL u && wfL v)
  | [], v => by simp [wfL]
  | t :: ts, v => by
    rw [List.cons_append, wfL_cons, wfL_cons, wfL_append ts v, Bool.and_assoc]

theorem insertPath_name : ∀ (t : TreeNode) (p : List String),
    (insertPath t p).name = t.name
  | .mk _ _ _, [] => rfl
  | .mk _ _ _, _ :: _ => rfl

theorem insertPath_isFile : ∀ (t : TreeNode) (p : List String),
    (insertPath t p).isFile = t.isFile
  | .mk _ _ _, [] => rfl
  | .mk _ _ _, _ :: _ => rfl

theorem replaceFirstChild_names (part : String) (g : TreeNode → TreeNode)
    (hg : ∀ t, (g t).name = t.name) :
    ∀ c, names (replaceFirstChild part g c) = names c
  | [] => rfl
  | ch :: cs => by
    rw [replaceFirstChild]
    split
    · simp [names, hg]
    · have := replaceFirstChild_names part g hg cs
      simp [names] at this ⊢
      exact this

theorem replaceFirstChild_of_found (part : String) (g : TreeNode → TreeNode) :
    ∀ u (v : List TreeNode) a, a.name = part → (∀ x ∈ u, x.name ≠ part) →
      replaceFirstChild part g (u ++ a :: v) = u ++ g a :: v
  | [], v, a, ha, _ => by
    rw [List.nil_append, replaceFirstChild, if_pos ha, List.nil_append]
  | x :: u, v, a, ha, hu => by
    rw [List.cons_append, replaceFirstChild,
      if_neg (hu x (List.mem_cons_self x u)),
      replaceFirstChild_of_found part g u v a ha
        (fun y hy => hu y (List.mem_cons_of_mem x hy)),
      List.cons_append]

theorem exists_first_of_hasChild :
    ∀ (c : List TreeNode) (part : String), hasChild c part = true →
      ∃ u a v, c = u ++ a :: v ∧ a.name = part ∧ ∀ x ∈ u, x.name ≠ part
  | [], part, h => by simp [hasChild] at h
  | ch :: cs, part, h => by
    by_cases he : ch.name = part
    · exact ⟨[], ch, cs, rfl, he, by simp⟩
    · have h' : hasChild cs part = true := by
        rcases (hasChild_iff _ _).mp h with ⟨x, hx, hxe⟩
        rcases List.mem_cons.mp hx with rfl | hx
        · exact absurd hxe he
        · exact (hasChild_iff _ _).mpr ⟨x, hx, hxe⟩
      obtain ⟨u, a, v, hc, ha, hu⟩ := exists_first_of_hasChild cs part h'
      refine ⟨ch :: u, a, v, by rw [hc, List.cons_append], ha, ?_⟩
      intro x hx
      rcases List.mem_cons.mp hx with rfl | hx
      · exact he
      · exact hu x hx

theorem wfL_replace (part : String) (g : TreeNode → TreeNode)
    (hg : ∀ a, wfT a = true → wfT (g a) = true) :
    ∀ c, wfL c = true → wfL (replaceFirstChild part g c) = true
  | [], h => h
  | ch :: cs, h => by
    rw [wfL_cons, Bool.and_eq_true] at h
    rw [replaceFirstChild]
    split
    · rw [wfL_cons, Bool.and_eq_true]
      exact ⟨hg ch h.1, h.2⟩
    · rw [wfL_cons, Bool.and_eq_true]
      exact ⟨h.1, wfL_replace part g hg cs h.2⟩

theorem dupFree_concat (l : List String) (s : String)
    (h1 : dupFree l = true) (h2 : ¬s ∈ l) : dupFree (l ++ [s]) = true := by
  rw [dupFree_iff] at h1 ⊢
  rw [List.nodup_append]
  exact ⟨h1, List.nodup_singleton s, by simpa [List.disjoint_singleton] using h2⟩

theorem wfT_newNode : ∀ (rest : List String) (part : String) (b : Bool),
    wfT (insertPath (.mk part [] b) rest) = true
  | [], _, _ => rfl
  | q :: qs, part, b => by
    rw [insertPath, if_neg (by simp [hasChild]), List.nil_append, wfT_mk]
    have h1 := wfT_newNode qs q qs.isEmpty
    simp [names, dupFree, wfL, h1]

theorem wf_insertPath : ∀ (p : List String) (t : TreeNode),
    wfT t = true → wfT (insertPath t p) = true
  | [], .mk _ _ _, h => h
  | part :: rest, .mk n c f, h => by
    rw [wfT_mk, Bool.and_eq_true] at h
    obtain ⟨hdf, hwl⟩ := h
    rw [insertPath, wfT_mk, Bool.and_eq_true]
    by_cases hhc : hasChild c part = true
    · rw [if_pos hhc]
      constructor
      · rw [replaceFirstChild_names part _ (fun t => insertPath_name t rest)]
        exact hdf
      · exact wfL_replace part _ (fun a ha => wf_insertPath rest a ha) c hwl
    · rw [if_neg hhc]
      constructor
      · rw [names_append]
        have hn : names [insertPath (.mk part [] rest.isEmpty) rest] = [part] := by
          rw [names, List.map_cons, List.map_nil, insertPath_name]
          rfl
        rw [hn]
        refine dupFree_concat _ _ hdf ?_
        intro hmem
        refine hhc ((hasChild_iff c part).mpr ?_)
        rw [names] at hmem
        obtain ⟨ch, hch, he⟩ := List.mem_map.mp hmem
        exact ⟨ch, hch, he⟩
      · rw [wfL_append, Bool.and_eq_true]
        refine ⟨hwl, ?_⟩
        rw [wfL_cons, wfT_newNode rest part rest.isEmpty]
        rfl

theorem sortC_congr (l₁ l₂ : List TreeNode) (hp : l₁.Perm l₂)
    (hnd : (names l₁).Nodup) : sortC l₁ = sortC l₂ := by
  apply pairwise_perm_eq (sortC l₁) (sortC l₂)
  · exact (sortC_perm l₁).trans (hp.trans (sortC_perm l₂).symm)
  · exact sortC_pairwise l₁
  · exact sortC_pairwise l₂
  · intro x hx y hy hn _
    have hx1 : x ∈ l₁ := (sortC_perm l₁).mem_iff.mp hx
    have hy1 : y ∈ l₁ := (sortC_perm l₁).mem_iff.mp hy
    exact List.inj_on_of_nodup_map hnd hx1 hy1 hn

theorem names_cons (t : TreeNode) (ts : List TreeNode) :
    names (t :: ts) = t.name :: names ts := rfl

theorem canon_mk_inj {n1 n2 : String} {c1 c2 : List TreeNode} {f1 f2 : Bool}
    (h : canon (.mk n1 c1 f1) = canon (.mk n2 c2 f2)) :
    n1 = n2 ∧ sortC (canonL c1) = sortC (canonL c2) ∧ f1 = f2 := by
  have h' : TreeNode.mk n1 (sortC (canonL c1)) f1 = .mk n2 (sortC (canonL c2)) f2 := h
  injection h' with ha hb hc
  exact ⟨ha, hb, hc⟩

theorem canon_mk_eq (n : String) (f : Bool) {c1 c2 : List TreeNode}
    (h : sortC (canonL c1) = sortC (canonL c2)) :
    canon (.mk n c1 f) = canon (.mk n c2 f) := by
  show TreeNode.mk n (sortC (canonL c1)) f = .mk n (sortC (canonL c2)) f
  rw [h]

theorem canonL_perm_of_sortC_eq {c1 c2 : List TreeNode}
    (h : sortC (canonL c1) = sortC (canonL c2)) : (canonL c1).Perm (canonL c2) := by
  have p1 := (sortC_perm (canonL c1)).symm
  rw [h] at p1
  exact p1.trans (sortC_perm (canonL c2))

theorem hasChild_iff_names (c : List TreeNode) (part : String) :
    hasChild c part = true ↔ part ∈ names c := by
  rw [hasChild_iff, names]
  constructor
  · rintro ⟨ch, hch, he⟩
    exact List.mem_map.mpr ⟨ch, hch, he⟩
  · intro h
    obtain ⟨ch, hch, he⟩ := List.mem_map.mp h
    exact ⟨ch, hch, he⟩

theorem hasChild_congr {c1 c2 : List TreeNode}
    (h : (names c1).Perm (names c2)) (part : String) :
    hasChild c1 part = hasChild c2 part := by
  cases hb : hasChild c2 part
  · cases hb1 : hasChild c1 part
    · rfl
    · have h2 := (hasChild_iff_names c2 part).mpr
        (h.mem_iff.mp ((hasChild_iff_names c1 part).mp hb1))
      rw [hb] at h2
      exact absurd h2 (by decide)
  · cases hb1 : hasChild c1 part
    · have h1 := (hasChild_iff_names c1 part).mpr
        (h.symm.mem_iff.mp ((hasChild_iff_names c2 part).mp hb))
      rw [hb1] at h1
      exact absurd h1 (by decide)
    · rfl

theorem canon_member_eq {part : String} {c1 c2 : List TreeNode}
    (h : sortC (canonL c1) = sortC (canonL c2)) (hnd : (names c2).Nodup)
    {a1 a2 : TreeNode} (h1 : a1 ∈ c1) (h2 : a2 ∈ c2)
    (hn1 : a1.name = part) (hn2 : a2.name = part) : canon a1 = canon a2 := by
  have hp : (canonL c1).Perm (canonL c2) := canonL_perm_of_sortC_eq h
  have hm1 : canon a1 ∈ canonL c1 := by
    rw [canonL_eq_map]
    exact List.mem_map.mpr ⟨a1, h1, rfl⟩
  have hm2 : canon a1 ∈ canonL c2 := hp.mem_iff.mp hm1
  rw [canonL_eq_map] at hm2
  obtain ⟨b, hb, hbe⟩ := List.mem_map.mp hm2
  have hbn : b.name = part := by
    rw [← canon_name b, hbe, canon_name a1, hn1]
  have hba : b = a2 := List.inj_on_of_nodup_map hnd hb h2 (by rw [hbn, hn2])
  rw [← hba]
  exact hbe.symm

/-- Inserting the same path into trees with the same canonical form
yields trees with the same canonical form. -/
theorem canon_insertPath_congr : ∀ (p : List String) (t1 t2 : TreeNode),
    wfT t1 = true → wfT t2 = true → canon t1 = canon t2 →
    canon (insertPath t1 p) = canon (insertPath t2 p)
  | [], .mk _ _ _, .mk _ _ _, _, _, h => h
  | part :: rest, .mk n1 c1 f1, .mk n2 c2 f2, hw1, hw2, h => by
    obtain ⟨hn, hsc, hf⟩ := canon_mk_inj h
    subst hn
    subst hf
    rw [wfT_mk, Bool.and_eq_true, dupFree_iff] at hw1 hw2
    obtain ⟨hnd1, hwl1⟩ := hw1
    obtain ⟨hnd2, hwl2⟩ := hw2
    have hperm : (canonL c1).Perm (canonL c2) := canonL_perm_of_sortC_eq hsc
    have hnp : (names c1).Perm (names c2) := by
      rw [← names_canonL c1, ← names_canonL c2]
      exact hperm.map TreeNode.name
    have hhc := hasChild_congr hnp part
    rw [insertPath, insertPath]
    by_cases hc : hasChild c1 part = true
    · rw [if_pos hc, if_pos (hhc ▸ hc)]
      obtain ⟨u1, a1, v1, he1, ha1, hu1⟩ := exists_first_of_hasChild c1 part hc
      obtain ⟨u2, a2, v2, he2, ha2, hu2⟩ :=
        exists_first_of_hasChild c2 part (hhc ▸ hc)
      have hmem1 : a1 ∈ c1 := by
        rw [he1]
        exact List.mem_append.mpr (Or.inr (List.mem_cons_self a1 v1))
      have hmem2 : a2 ∈ c2 := by
        rw [he2]
        exact List.mem_append.mpr (Or.inr (List.mem_cons_self a2 v2))
      have hca : canon a1 = canon a2 := canon_member_eq hsc hnd2 hmem1 hmem2 ha1 ha2
      have hwa1 : wfT a1 = true := (wfL_iff c1).mp hwl1 a1 hmem1
      have hwa2 : wfT a2 = true := (wfL_iff c2).mp hwl2 a2 hmem2
      have hg : canon (insertPath a1 rest) = canon (insertPath a2 rest) :=
        canon_insertPath_congr rest a1 a2 hwa1 hwa2 hca
      rw [he1, he2, replaceFirstChild_of_found part _ u1 v1 a1 ha1 hu1,
        replaceFirstChild_of_found part _ u2 v2 a2 ha2 hu2]
      apply canon_mk_eq
      apply sortC_congr
      · -- permutation between the two replaced, canonicalised child lists
        rw [canonL_eq_map, canonL_eq_map, List.map_append, List.map_append,
          List.map_cons, List.map_cons, hg]
        have hp0 : (u1.map canon ++ canon a1 :: v1.map canon).Perm
            (u2.map canon ++ canon a1 :: v2.map canon) := by
          have hpc := hperm
          rw [he1, he2, canonL_eq_map, canonL_eq_map, List.map_append, List.map_append,
            List.map_cons, List.map_cons, ← hca] at hpc
          exact hpc
        have step1 : (u1.map canon ++ canon a1 :: v1.map canon).Perm
            (canon a1 :: (u1.map canon ++ v1.map canon)) := List.perm_middle
        have step2 : (u2.map canon ++ canon a1 :: v2.map canon).Perm
            (canon a1 :: (u2.map canon ++ v2.map canon)) := List.perm_middle
        have htails : (u1.map canon ++ v1.map canon).Perm
            (u2.map canon ++ v2.map canon) :=
          (step1.symm.trans (hp0.trans step2)).cons_inv
        have step3 : (u1.map canon ++ canon (insertPath a2 rest) :: v1.map canon).Perm
            (canon (insertPath a2 rest) :: (u1.map canon ++ v1.map canon)) :=
          List.perm_middle
        have step4 : (u2.map canon ++ canon (insertPath a2 rest) :: v2.map canon).Perm
            (canon (insertPath a2 rest) :: (u2.map canon ++ v2.map canon)) :=
          List.perm_middle
        exact step3.trans ((htails.cons _).trans step4.symm)
      · rw [names_canonL]
        have hx : names (u1 ++ insertPath a1 rest :: v1) = names c1 := by
          rw [he1, names_append, names_append, names_cons, names_cons, insertPath_name]
        rw [hx]
        exact hnd1
    · rw [if_neg hc, if_neg (by rw [← hhc]; exact hc)]
      apply canon_mk_eq
      apply sortC_congr
      · rw [canonL_eq_map, canonL_eq_map, List.map_append, List.map_append]
        have hpc := hperm
        rw [canonL_eq_map, canonL_eq_map] at hpc
        exact hpc.append_right _
      · rw [names_canonL, names_append, names_cons, insertPath_name]
        show (names c1 ++ [part]).Nodup
        rw [List.nodup_append]
        refine ⟨hnd1, List.nodup_singleton _, ?_⟩
        rw [List.disjoint_singleton]
        intro hmem
        exact hc ((hasChild_iff_names c1 part).mpr hmem)

theorem canonL_cons (t : TreeNode) (ts : List TreeNode) :
    canonL (t :: ts) = canon t :: canonL ts := rfl

theorem canonL_append (u v : List TreeNode) : canonL (u ++ v) = canonL u ++ canonL v := by
  rw [canonL_eq_map, canonL_eq_map, canonL_eq_map, List.map_append]

theorem wfT_base (a : String) (f : Bool) : wfT (.mk a [] f) = true := rfl

theorem replaceFirstChild_cons_pos {part : String} {ch : TreeNode} (he : ch.name = part)
    (g : TreeNode → TreeNode) (cs : List TreeNode) :
    replaceFirstChild part g (ch :: cs) = g ch :: cs := by
  rw [replaceFirstChild, if_pos he]

theorem replaceFirstChild_cons_neg {part : String} {ch : TreeNode} (he : ¬ch.name = part)
    (g : TreeNode → TreeNode) (cs : List TreeNode) :
    replaceFirstChild part g (ch :: cs) = ch :: replaceFirstChild part g cs := by
  rw [replaceFirstChild, if_neg he]

theorem replaceFirstChild_comp (part : String) (g1 g2 : TreeNode → TreeNode)
    (hg1 : ∀ t, (g1 t).name = t.name) :
    ∀ c, replaceFirstChild part g2 (replaceFirstChild part g1 c) =
      replaceFirstChild part (fun x => g2 (g1 x)) c
  | [] => rfl
  | ch :: cs => by
    by_cases he : ch.name = part
    · rw [replaceFirstChild_cons_pos he,
        replaceFirstChild_cons_pos (show (g1 ch).name = part by rw [hg1]; exact he),
        replaceFirstChild_cons_pos he]
    · rw [replaceFirstChild_cons_neg he, replaceFirstChild_cons_neg he,
        replaceFirstChild_comp part g1 g2 hg1 cs, replaceFirstChild_cons_neg he]

theorem replaceFirstChild_comm (pa pb : String) (hne : pa ≠ pb)
    (g1 g2 : TreeNode → TreeNode)
    (hg1 : ∀ t, (g1 t).name = t.name) (hg2 : ∀ t, (g2 t).name = t.name) :
    ∀ c, replaceFirstChild pb g2 (replaceFirstChild pa g1 c) =
      replaceFirstChild pa g1 (replaceFirstChild pb g2 c)
  | [] => rfl
  | ch :: cs => by
    by_cases hea : ch.name = pa
    · have heb : ¬ch.name = pb := fun h => hne (hea.symm.trans h)
      rw [replaceFirstChild_cons_pos hea,
        replaceFirstChild_cons_neg (show ¬(g1 ch).name = pb by rw [hg1]; exact heb),
        replaceFirstChild_cons_neg heb, replaceFirstChild_cons_pos hea]
    · by_cases heb : ch.name = pb
      · rw [replaceFirstChild_cons_neg hea, replaceFirstChild_cons_pos heb,
          replaceFirstChild_cons_pos heb,
          replaceFirstChild_cons_neg (show ¬(g2 ch).name = pa by rw [hg2]; exact hea)]
      · rw [replaceFirstChild_cons_neg hea, replaceFirstChild_cons_neg heb,
          replaceFirstChild_cons_neg heb, replaceFirstChild_cons_neg hea,
          replaceFirstChild_comm pa pb hne g1 g2 hg1 hg2 cs]

theorem replaceFirstChild_append_left (part : String) (g : TreeNode → TreeNode) :
    ∀ u (v : List TreeNode), hasChild u part = true →
      replaceFirstChild part g (u ++ v) = replaceFirstChild part g u ++ v
  | [], _, h => by simp [hasChild] at h
  | ch :: cs, v, h => by
    by_cases he : ch.name = part
    · rw [List.cons_append, replaceFirstChild_cons_pos he,
        replaceFirstChild_cons_pos he, List.cons_append]
    · have h' : hasChild cs part = true := by
        rcases (hasChild_iff _ _).mp h with ⟨x, hx, hxe⟩
        rcases List.mem_cons.mp hx with rfl | hx
        · exact absurd hxe he
        · exact (hasChild_iff _ _).mpr ⟨x, hx, hxe⟩
      rw [List.cons_append, replaceFirstChild_cons_neg he, replaceFirstChild_cons_neg he,
        replaceFirstChild_append_left part g cs v h', List.cons_append]

theorem hasChild_append (c d : List TreeNode) (part : String) :
    hasChild (c ++ d) part = (hasChild c part || hasChild d part) := by
  simp [hasChild, List.any_append]

theorem hasChild_single (N : TreeNode) (s : String) (hns : N.name ≠ s) :
    hasChild [N] s = false := by
  cases hh : hasChild [N] s
  · rfl
  · obtain ⟨x, hx, he⟩ := (hasChild_iff _ _).mp hh
    rcases List.mem_cons.mp hx with rfl | hx
    · exact absurd he hns
    · simp at hx

theorem hasChild_eq_of_names_eq {c1 c2 : List TreeNode} (h : names c1 = names c2)
    (part : String) : hasChild c1 part = hasChild c2 part := by
  cases hb : hasChild c2 part
  · cases hb1 : hasChild c1 part
    · rfl
    · have hm := (hasChild_iff_names c1 part).mp hb1
      rw [h, ← hasChild_iff_names c2 part, hb] at hm
      exact absurd hm (by decide)
  · cases hb1 : hasChild c1 part
    · have hm := (hasChild_iff_names c2 part).mp hb
      rw [← h, ← hasChild_iff_names c1 part, hb1] at hm
      exact absurd hm (by decide)
    · rfl

theorem hasChild_replace (part pa : String) (g : TreeNode → TreeNode)
    (hg : ∀ t, (g t).name = t.name) (c : List TreeNode) :
    hasChild (replaceFirstChild pa g c) part = hasChild c part :=
  hasChild_eq_of_names_eq (replaceFirstChild_names pa g hg c) part

theorem canonL_replace_congr (part : String) (g1 g2 : TreeNode → TreeNode) :
    ∀ c, (∀ t ∈ c, canon (g1 t) = canon (g2 t)) →
      canonL (replaceFirstChild part g1 c) = canonL (replaceFirstChild part g2 c)
  | [], _ => rfl
  | ch :: cs, hgc => by
    by_cases he : ch.name = part
    · rw [replaceFirstChild_cons_pos he, replaceFirstChild_cons_pos he, canonL_cons,
        canonL_cons, hgc ch (List.mem_cons_self ch cs)]
    · rw [replaceFirstChild_cons_neg he, replaceFirstChild_cons_neg he, canonL_cons,
        canonL_cons,
        canonL_replace_congr part g1 g2 cs (fun t ht => hgc t (List.mem_cons_of_mem ch ht))]

theorem append_two_swap {α : Type} (u : List α) (x y : α) :
    ((u ++ [x]) ++ [y]).Perm ((u ++ [y]) ++ [x]) := by
  rw [List.append_assoc, List.append_assoc]
  exact List.Perm.append_left u (List.Perm.swap y x [])

/-- Does the first segment sequence lead into (start) the second? -/
def leadsInto : List String → List String → Bool
  | [], _ => true
  | _ :: _, [] => false
  | a :: as, b :: bs => a == b && leadsInto as bs

theorem leadsInto_nil (q : List String) : leadsInto [] q = true := rfl

/-- Inserting two incomparable paths commutes up to canonical form. -/
theorem canon_insertPath_swap : ∀ (p q : List String) (t : TreeNode),
    wfT t = true → leadsInto p q = false → leadsInto q p = false →
    canon (insertPath (insertPath t p) q) = canon (insertPath (insertPath t q) p)
  | [], q, _, _, hpq, _ => by
    rw [leadsInto_nil] at hpq
    exact absurd hpq (by decide)
  | _ :: _, [], _, _, _, hqp => by
    rw [leadsInto_nil] at hqp
    exact absurd hqp (by decide)
  | a :: p', b :: q', .mk n c f, hw, hpq, hqp => by
    rw [wfT_mk, Bool.and_eq_true, dupFree_iff] at hw
    obtain ⟨hnd, hwl⟩ := hw
    by_cases hab : a = b
    · subst hab
      have hpq' : leadsInto p' q' = false := by
        rw [leadsInto] at hpq
        simpa using hpq
      have hqp' : leadsInto q' p' = false := by
        rw [leadsInto] at hqp
        simpa using hqp
      have hpe : p'.isEmpty = false := by
        cases p' with
        | nil =>
          rw [leadsInto_nil] at hpq'
          exact absurd hpq' (by decide)
        | cons _ _ => rfl
      have hqe : q'.isEmpty = false := by
        cases q' with
        | nil =>
          rw [leadsInto_nil] at hqp'
          exact absurd hqp' (by decide)
        | cons _ _ => rfl
      by_cases hc : hasChild c a = true
      · have e1 : insertPath (.mk n c f) (a :: p') =
            .mk n (replaceFirstChild a (fun ch => insertPath ch p') c) f := by
          rw [insertPath, if_pos hc]
        have e2 : insertPath (.mk n c f) (a :: q') =
            .mk n (replaceFirstChild a (fun ch => insertPath ch q') c) f := by
          rw [insertPath, if_pos hc]
        have e3 : insertPath (.mk n (replaceFirstChild a (fun ch => insertPath ch p') c) f)
              (a :: q') =
            .mk n (replaceFirstChild a (fun ch => insertPath ch q')
              (replaceFirstChild a (fun ch => insertPath ch p') c)) f := by
          rw [insertPath,
            if_pos (by rw [hasChild_replace a a _ (fun t => insertPath_name t p')]; exact hc)]
        have e4 : insertPath (.mk n (replaceFirstChild a (fun ch => insertPath ch q') c) f)
              (a :: p') =
            .mk n (replaceFirstChild a (fun ch => insertPath ch p')
              (replaceFirstChild a (fun ch => insertPath ch q') c)) f := by
          rw [insertPath,
            if_pos (by rw [hasChild_replace a a _ (fun t => insertPath_name t q')]; exact hc)]
        rw [e1, e3, e2, e4,
          replaceFirstChild_comp a _ _ (fun t => insertPath_name t p') c,
          replaceFirstChild_comp a _ _ (fun t => insertPath_name t q') c]
        apply canon_mk_eq
        rw [canonL_replace_congr a _ _ c
          (fun ch hch => canon_insertPath_swap p' q' ch ((wfL_iff c).mp hwl ch hch) hpq' hqp')]
      · have e1 : insertPath (.mk n c f) (a :: p') =
            .mk n (c ++ [insertPath (.mk a [] false) p']) f := by
          rw [insertPath, if_neg hc, hpe]
        have e2 : insertPath (.mk n c f) (a :: q') =
            .mk n (c ++ [insertPath (.mk a [] false) q']) f := by
          rw [insertPath, if_neg hc, hqe]
        have hu : ∀ x ∈ c, x.name ≠ a :=
          fun x hx he => hc ((hasChild_iff_names c a).mpr (List.mem_map.mpr ⟨x, hx, he⟩))
        have e3 : insertPath (.mk n (c ++ [insertPath (.mk a [] false) p']) f) (a :: q') =
            .mk n (c ++ [insertPath (insertPath (.mk a [] false) p') q']) f := by
          rw [insertPath,
            if_pos (by
              rw [hasChild_append, Bool.or_eq_true]
              right
              exact (hasChild_iff _ _).mpr
                ⟨_, List.mem_cons_self _ _, by rw [insertPath_name]; rfl⟩),
            replaceFirstChild_of_found a _ c [] _ (by rw [insertPath_name]; rfl) hu]
        have e4 : insertPath (.mk n (c ++ [insertPath (.mk a [] false) q']) f) (a :: p') =
            .mk n (c ++ [insertPath (insertPath (.mk a [] false) q') p']) f := by
          rw [insertPath,
            if_pos (by
              rw [hasChild_append, Bool.or_eq_true]
              right
              exact (hasChild_iff _ _).mpr
                ⟨_, List.mem_cons_self _ _, by rw [insertPath_name]; rfl⟩),
            replaceFirstChild_of_found a _ c [] _ (by rw [insertPath_name]; rfl) hu]
        rw [e1, e3, e2, e4]
        apply canon_mk_eq
        rw [canonL_append, canonL_append, canonL_cons, canonL_cons,
          canon_insertPath_swap p' q' (.mk a [] false) rfl hpq' hqp']
    · by_cases hca : hasChild c a = true <;> by_cases hcb : hasChild c b = true
      · -- both children exist: the two replacements commute exactly
        have e1 : insertPath (.mk n c f) (a :: p') =
            .mk n (replaceFirstChild a (fun ch => insertPath ch p') c) f := by
          rw [insertPath, if_pos hca]
        have e2 : insertPath (.mk n c f) (b :: q') =
            .mk n (replaceFirstChild b (fun ch => insertPath ch q') c) f := by
          rw [insertPath, if_pos hcb]
        have e3 : insertPath (.mk n (replaceFirstChild a (fun ch => insertPath ch p') c) f)
              (b :: q') =
            .mk n (replaceFirstChild b (fun ch => insertPath ch q')
              (replaceFirstChild a (fun ch => insertPath ch p') c)) f := by
          rw [insertPath,
            if_pos (by rw [hasChild_replace b a _ (fun t => insertPath_name t p')]; exact hcb)]
        have e4 : insertPath (.mk n (replaceFirstChild b (fun ch => insertPath ch q') c) f)
              (a :: p') =
            .mk n (replaceFirstChild a (fun ch => insertPath ch p')
              (replaceFirstChild b (fun ch => insertPath ch q') c)) f := by
          rw [insertPath,
            if_pos (by rw [hasChild_replace a b _ (fun t => insertPath_name t q')]; exact hca)]
        rw [e1, e3, e2, e4,
          replaceFirstChild_comm a b hab _ _ (fun t => insertPath_name t p')
            (fun t => insertPath_name t q') c]
      · -- `a` exists, `b` is new
        have e1 : insertPath (.mk n c f) (a :: p') =
            .mk n (replaceFirstChild a (fun ch => insertPath ch p') c) f := by
          rw [insertPath, if_pos hca]
        have e3 : insertPath (.mk n (replaceFirstChild a (fun ch => insertPath ch p') c) f)
              (b :: q') =
            .mk n (replaceFirstChild a (fun ch => insertPath ch p') c ++
              [insertPath (.mk b [] q'.isEmpty) q']) f := by
          rw [insertPath,
            if_neg (by rw [hasChild_replace b a _ (fun t => insertPath_name t p')]; exact hcb)]
        have e2 : insertPath (.mk n c f) (b :: q') =
            .mk n (c ++ [insertPath (.mk b [] q'.isEmpty) q']) f := by
          rw [insertPath, if_neg hcb]
        have e4 : insertPath (.mk n (c ++ [insertPath (.mk b [] q'.isEmpty) q']) f)
              (a :: p') =
            .mk n (replaceFirstChild a (fun ch => insertPath ch p')
              (c ++ [insertPath (.mk b [] q'.isEmpty) q'])) f := by
          rw [insertPath,
            if_pos (by rw [hasChild_append, Bool.or_eq_true]; left; exact hca)]
        rw [e1, e3, e2, e4, replaceFirstChild_append_left a _ c _ hca]
      · -- `b` exists, `a` is new
        have e1 : insertPath (.mk n c f) (b :: q') =
            .mk n (replaceFirstChild b (fun ch => insertPath ch q') c) f := by
          rw [insertPath, if_pos hcb]
        have e3 : insertPath (.mk n (replaceFirstChild b (fun ch => insertPath ch q') c) f)
              (a :: p') =
            .mk n (replaceFirstChild b (fun ch => insertPath ch q') c ++
              [insertPath (.mk a [] p'.isEmpty) p']) f := by
          rw [insertPath,
            if_neg (by rw [hasChild_replace a b _ (fun t => insertPath_name t q')]; exact hca)]
        have e2 : insertPath (.mk n c f) (a :: p') =
            .mk n (c ++ [insertPath (.mk a [] p'.isEmpty) p']) f := by
          rw [insertPath, if_neg hca]
        have e4 : insertPath (.mk n (c ++ [insertPath (.mk a [] p'.isEmpty) p']) f)
              (b :: q') =
            .mk n (replaceFirstChild b (fun ch => insertPath ch q')
              (c ++ [insertPath (.mk a [] p'.isEmpty) p'])) f := by
          rw [insertPath,
            if_pos (by rw [hasChild_append, Bool.or_eq_true]; left; exact hcb)]
        rw [e2, e4, e1, e3, replaceFirstChild_append_left b _ c _ hcb]
      · -- both new: appended in either order, equal up to sibling sorting
        have hcaf : hasChild c a = false := by
          cases hh : hasChild c a
          · rfl
          · exact absurd hh hca
        have hcbf : hasChild c b = false := by
          cases hh : hasChild c b
          · rfl
          · exact absurd hh hcb
        have e1 : insertPath (.mk n c f) (a :: p') =
            .mk n (c ++ [insertPath (.mk a [] p'.isEmpty) p']) f := by
          rw [insertPath, if_neg hca]
        have e2 : insertPath (.mk n c f) (b :: q') =
            .mk n (c ++ [insertPath (.mk b [] q'.isEmpty) q']) f := by
          rw [insertPath, if_neg hcb]
        have e3 : insertPath (.mk n (c ++ [insertPath (.mk a [] p'.isEmpty) p']) f)
              (b :: q') =
            .mk n ((c ++ [insertPath (.mk a [] p'.isEmpty) p']) ++
              [insertPath (.mk b [] q'.isEmpty) q']) f := by
          rw [insertPath,
            if_neg (by
              rw [hasChild_append, hcbf,
                hasChild_single _ b (by rw [insertPath_name]; exact hab)]
              decide)]
        have e4 : insertPath (.mk n (c ++ [insertPath (.mk b [] q'.isEmpty) q']) f)
              (a :: p') =
            .mk n ((c ++ [insertPath (.mk b [] q'.isEmpty) q']) ++
              [insertPath (.mk a [] p'.isEmpty) p']) f := by
          rw [insertPath,
            if_neg (by
              rw [hasChild_append, hcaf,
                hasChild_single _ a (by rw [insertPath_name]; exact fun h => hab h.symm)]
              decide)]
        rw [e1, e3, e2, e4]
        apply canon_mk_eq
        apply sortC_congr
        · rw [canonL_eq_map, canonL_eq_map]
          have := append_two_swap (c.map canon) (canon (insertPath (.mk a [] p'.isEmpty) p'))
            (canon (insertPath (.mk b [] q'.isEmpty) q'))
          rw [List.map_append, List.map_append, List.map_append, List.map_append,
            List.map_cons, List.map_cons, List.map_nil]
          exact this
        · rw [names_canonL, names_append, names_append, names_cons, names_cons,
            insertPath_name, insertPath_name]
          show ((names c ++ [a]) ++ [b]).Nodup
          rw [List.nodup_append, List.nodup_append, List.disjoint_singleton,
            List.disjoint_singleton]
          refine ⟨⟨hnd, List.nodup_singleton _, ?_⟩, List.nodup_singleton _, ?_⟩
          · intro hmem
            exact hca ((hasChild_iff_names c a).mpr hmem)
          · intro hmem
            rcases List.mem_append.mp hmem with hmem | hmem
            · exact hcb ((hasChild_iff_names c b).mpr hmem)
            · rcases List.mem_cons.mp hmem with he | he
              · exact hab he.symm
              · simp at he

/-- Fold a list of raw paths into a tree (the loop inside `buildTree`). -/
def foldIns (t : TreeNode) (P : List String) : TreeNode :=
  P.foldl (fun t p => insertPath t (splitPath p)) t

theorem foldIns_cons (t : TreeNode) (p : String) (P : List String) :
    foldIns t (p :: P) = foldIns (insertPath t (splitPath p)) P := rfl

theorem buildTree_eq_foldIns (P : List String) :
    buildTree P = foldIns (.mk "" [] false) P := rfl

theorem wf_foldIns : ∀ (P : List String) (t : TreeNode),
    wfT t = true → wfT (foldIns t P) = true
  | [], _, h => h
  | p :: P, t, h => wf_foldIns P _ (wf_insertPath (splitPath p) t h)

theorem canon_foldIns_congr : ∀ (P : List String) (t1 t2 : TreeNode),
    wfT t1 = true → wfT t2 = true → canon t1 = canon t2 →
    canon (foldIns t1 P) = canon (foldIns t2 P)
  | [], _, _, _, _, h => h
  | p :: P, t1, t2, h1, h2, h =>
    canon_foldIns_congr P _ _ (wf_insertPath _ t1 h1) (wf_insertPath _ t2 h2)
      (canon_insertPath_congr (splitPath p) t1 t2 h1 h2 h)

/-- Folding a permuted path list gives the same canonical tree, provided
any two paths are equal or mutually non-nested. -/
theorem canon_foldIns_perm {P1 P2 : List String} (hperm : P1.Perm P2)
    (hcompat : ∀ p ∈ P1, ∀ q ∈ P1, p = q ∨
      (leadsInto (splitPath p) (splitPath q) = false ∧
       leadsInto (splitPath q) (splitPath p) = false)) :
    ∀ t, wfT t = true → canon (foldIns t P1) = canon (foldIns t P2) := by
  induction hperm with
  | nil => intro t _; rfl
  | cons p h ih =>
    intro t hw
    rw [foldIns_cons, foldIns_cons]
    exact ih (fun x hx y hy =>
      hcompat x (List.mem_cons_of_mem p hx) y (List.mem_cons_of_mem p hy)) _
      (wf_insertPath _ t hw)
  | swap x y l =>
    intro t hw
    rw [foldIns_cons, foldIns_cons, foldIns_cons, foldIns_cons]
    apply canon_foldIns_congr l
    · exact wf_insertPath _ _ (wf_insertPath _ t hw)
    · exact wf_insertPath _ _ (wf_insertPath _ t hw)
    · rcases hcompat y (List.mem_cons_self _ _)
        x (List.mem_cons_of_mem _ (List.mem_cons_self _ _)) with he | ⟨h1, h2⟩
      · rw [he]
      · exact canon_insertPath_swap (splitPath y) (splitPath x) t hw h1 h2
  | trans h12 _ ih12 ih23 =>
    intro t hw
    rw [ih12 hcompat t hw]
    exact ih23 (fun p hp q hq =>
      hcompat p (h12.mem_iff.mpr hp) q (h12.mem_iff.mpr hq)) t hw

theorem canonL_insertSorted (a : TreeNode) :
    ∀ l, canonL (insertSorted a l) = insertSorted (canon a) (canonL l)
  | [] => rfl
  | b :: bs => by
    have hle : nodeLe (canon a) (canon b) = nodeLe a b := by
      unfold nodeLe nodeCmp
      rw [canon_name, canon_name, canon_isFile, canon_isFile]
    by_cases hab : nodeLe a b = true
    · rw [insertSorted, if_pos hab, canonL_cons, canonL_cons, insertSorted,
        if_pos (by rw [hle]; exact hab)]
    · rw [insertSorted, if_neg hab, canonL_cons, canonL_cons, insertSorted,
        if_neg (by rw [hle]; exact hab), canonL_insertSorted a bs]

theorem canonL_sortC : ∀ l : List TreeNode, canonL (sortC l) = sortC (canonL l)
  | [] => rfl
  | a :: as => by
    rw [sortC, canonL_insertSorted a (sortC as), canonL_sortC as, canonL_cons, sortC]

mutual

/-- Rendering depends only on the canonical form of a tree. -/
theorem renderTree_congr : ∀ (t1 t2 : TreeNode), canon t1 = canon t2 →
    ∀ (pfx : String) (isLast isRoot : Bool),
      renderTree t1 pfx isLast isRoot = renderTree t2 pfx isLast isRoot
  | .mk n1 c1 f1, .mk n2 c2 f2, h, pfx, il, ir => by
    obtain ⟨hn, hsc, hf⟩ := canon_mk_inj h
    subst hn
    subst hf
    have hrc : ∀ s : String, renderChildren (sortC c1) s = renderChildren (sortC c2) s :=
      fun s => renderChildren_congr (sortC c1) (sortC c2)
        (by rw [canonL_sortC, canonL_sortC, hsc]) s
    simp only [renderTree, TreeNode.name, TreeNode.children, TreeNode.isFile]
    rw [hrc]
termination_by t1 _ _ _ _ _ => 3 * t1.size - 2
decreasing_by
  simp [TreeNode.children, TreeNode.size, sizeL_sortC]
  omega

/-- Rendering a sibling list depends only on the canonical forms. -/
theorem renderChildren_congr : ∀ (l1 l2 : List TreeNode), canonL l1 = canonL l2 →
    ∀ pfx : String, renderChildren l1 pfx = renderChildren l2 pfx
  | [], [], _, _ => rfl
  | [], _ :: _, h, _ => by simp [canonL] at h
  | _ :: _, [], h, _ => by simp [canonL] at h
  | [a], [b], h, pfx => by
    rw [canonL_cons, canonL_cons] at h
    injection h with h1 _
    simp only [renderChildren]
    exact renderTree_congr a b h1 pfx true false
  | [a], b :: b2 :: bs, h, _ => by simp [canonL] at h
  | a :: a2 :: as, [b], h, _ => by simp [canonL] at h
  | a :: a2 :: as, b :: b2 :: bs, h, pfx => by
    rw [canonL_cons, canonL_cons] at h
    injection h with h1 h2
    simp only [renderChildren]
    rw [renderTree_congr a b h1 pfx false false,
      renderChildren_congr (a2 :: as) (b2 :: bs) h2 pfx]
termination_by l1 _ _ _ => 3 * sizeL l1
decreasing_by
  · have := size_pos a
    simp [sizeL]
    omega
  · have := size_pos a
    simp [sizeL]
    omega
  · have := size_pos a
    simp [sizeL]
    omega

end

/-- C6 (counterexample).  The claim says the render is stable under any
permutation of the input path set.  The set `a`, `a/b` refutes it: a
node's leaf flag is fixed when it is first created, so if `a` arrives
first it is created as a file and stays one after `a/b` adds a child,
while in the other order it is created as a directory — the rendered
line for `a` differs (`└── a` versus `└── a/`). -/
theorem claim6_counterexample :
    List.Perm ["a", "a/b"] ["a/b", "a"] ∧
    renderTree (buildTree ["a", "a/b"]) "" true true ≠
      renderTree (buildTree ["a/b", "a"]) "" true true := by
  constructor
  · exact List.Perm.swap "a/b" "a" []
  · rw [show buildTree ["a", "a/b"] =
        .mk "" [.mk "a" [.mk "b" [] true] true] false from rfl]
    rw [show buildTree ["a/b", "a"] =
        .mk "" [.mk "a" [.mk "b" [] true] false] false from rfl]
    simp [renderTree, renderChildren, sortC, insertSorted,
      TreeNode.name, TreeNode.children, TreeNode.isFile]

/-- C6 (amended).  The render of `buildTree` is stable under permutation
of the input paths provided no path is a strict ancestor of another (any
two paths are equal or neither's segment list starts the other's) — the
leaf flag is fixed at node creation, so ancestor-related paths do depend
on order.  Moreover the sibling lists actually rendered are exactly the
comparator-sorted ones: directories before files, then lexicographically
by name. -/
theorem claim6_amended (P1 P2 : List String) (hperm : P1.Perm P2)
    (hcompat : ∀ p ∈ P1, ∀ q ∈ P1, p = q ∨
      (leadsInto (splitPath p) (splitPath q) = false ∧
       leadsInto (splitPath q) (splitPath p) = false)) :
    renderTree (buildTree P1) "" true true = renderTree (buildTree P2) "" true true ∧
    ∀ node : TreeNode, List.Pairwise (fun a b => nodeLe a b = true) (sortC node.children) := by
  constructor
  · apply renderTree_congr
    rw [buildTree_eq_foldIns, buildTree_eq_foldIns]
    exact canon_foldIns_perm hperm hcompat (.mk "" [] false) rfl
  · intro node
    exact sortC_pairwise node.children

/-- C6 (witness): the amended claim at a concrete two-path set. -/
theorem claim6_witness :
    renderTree (buildTree ["a/x", "b"]) "" true true =
      renderTree (buildTree ["b", "a/x"]) "" true true ∧
    ∀ node : TreeNode, List.Pairwise (fun a b => nodeLe a b = true) (sortC node.children) :=
  claim6_amended ["a/x", "b"] ["b", "a/x"] (List.Perm.swap "b" "a/x" []) (by decide)

end Txtzip
